import Mathlib

/-!
Verification of the `ini-rs` crate against its specification.

The crate's own `src/lib.rs` contains no engine: its public surface is the
re-export `pub use configparser;`.  The INI parsing / storage / serialization
engine therefore lives outside the repository, and the definitions below are
modelled from the specification (each such definition says so in its doc
comment).  The structural content of `src/lib.rs` itself is embedded at the
end of the definition section.
-/

namespace IniRs

/-- A string is modelled as its list of characters. -/
abbrev Str := List Char

/-- Conversion from a Lean string literal to the character-list model. -/
def strL (s : String) : Str := s.data

/-- Modelled from the spec: whitespace recognised by trimming (ASCII). -/
def isWs (c : Char) : Bool := c = ' ' || c = '\t' || c = '\r' || c = '\n'

/-- Modelled from the spec: remove leading whitespace. -/
def trimL (s : Str) : Str := s.dropWhile isWs

/-- Modelled from the spec: remove trailing whitespace. -/
def trimR (s : Str) : Str := (s.reverse.dropWhile isWs).reverse

/-- Modelled from the spec: remove leading and trailing whitespace. -/
def trim (s : Str) : Str := trimR (trimL s)

/-- Modelled from the spec: ASCII lowercasing of one character. -/
def lowerChar (c : Char) : Char :=
  match c with
  | 'A' => 'a' | 'B' => 'b' | 'C' => 'c' | 'D' => 'd' | 'E' => 'e'
  | 'F' => 'f' | 'G' => 'g' | 'H' => 'h' | 'I' => 'i' | 'J' => 'j'
  | 'K' => 'k' | 'L' => 'l' | 'M' => 'm' | 'N' => 'n' | 'O' => 'o'
  | 'P' => 'p' | 'Q' => 'q' | 'R' => 'r' | 'S' => 's' | 'T' => 't'
  | 'U' => 'u' | 'V' => 'v' | 'W' => 'w' | 'X' => 'x' | 'Y' => 'y'
  | 'Z' => 'z' | c => c

/-- Modelled from the spec: lowercasing of a whole string. -/
def lower (s : Str) : Str := s.map lowerChar

/-- Modelled from the spec: canonicalization of section and key names
(trim then lowercase), applied identically at insertion and lookup. -/
def canon (s : Str) : Str := lower (trim s)

/-- Split a string at the first occurrence of a delimiter character;
`none` when the delimiter does not occur. -/
def splitOnFirst (d : Char) : Str → Option (Str × Str)
  | [] => none
  | c :: rest =>
    if c = d then some ([], rest)
    else
      match splitOnFirst d rest with
      | none => none
      | some (a, b) => some (c :: a, b)

/-- Split text into its physical lines at newline characters. -/
def splitLines : Str → List Str
  | [] => [[]]
  | c :: rest =>
    if c = '\n' then [] :: splitLines rest
    else
      match splitLines rest with
      | [] => [[c]]
      | l :: ls => (c :: l) :: ls

/-- Join lines with newline separators. -/
def joinLines : List Str → Str
  | [] => []
  | [l] => l
  | l :: ls => l ++ '\n' :: joinLines ls

/-- Modelled from the spec (§4.1): the classification of one physical line. -/
inductive LineKind where
  | blank : LineKind
  | comment : LineKind
  | header (nm : Str) : LineKind
  | entry (k : Str) (v : Option Str) : LineKind
  | malformed : LineKind
deriving DecidableEq

/-- Modelled from the spec (§4.1): the Line Classifier.  A trimmed-empty line
is blank; a line starting with the comment markers is a comment; a line
starting with a bracket is a section header (terminated by the first
closing bracket, name trimmed and lowercased; a missing closing bracket is
the malformed-header syntax error); otherwise the line is an entry, split at
the first delimiter when present, and a bare key with an absent value slot
when no delimiter occurs. -/
def classify (l : Str) : LineKind :=
  match trim l with
  | [] => .blank
  | c :: rest =>
    if c = ';' ∨ c = '#' then .comment
    else if c = '[' then
      match splitOnFirst ']' rest with
      | none => .malformed
      | some (nm, _) => .header (canon nm)
    else
      match splitOnFirst '=' (c :: rest) with
      | none => .entry (canon (c :: rest)) none
      | some (k, v) => .entry (canon k) (some (trim v))

/-- A section: key-to-value-slot association list in insertion order.
A value slot is absent (`none`) or present with a string (`some`). -/
abbrev Sec := List (Str × Option Str)

/-- A document: section-name-to-section association list in insertion order. -/
abbrev Doc := List (Str × Sec)

/-- Insert or overwrite a key's value slot in a section (last write wins:
the value slot of an existing key is replaced in place). -/
def secInsert (k : Str) (v : Option Str) : Sec → Sec
  | [] => [(k, v)]
  | (k', v') :: rest =>
    if k' = k then (k', v) :: rest else (k', v') :: secInsert k v rest

/-- Look up a key's value slot in a section. -/
def secGet (k : Str) : Sec → Option (Option Str)
  | [] => none
  | (k', v') :: rest => if k' = k then some v' else secGet k rest

/-- Look up a section by name in a document. -/
def docGet (s : Str) : Doc → Option Sec
  | [] => none
  | (s', sec) :: rest => if s' = s then some sec else docGet s rest

/-- Insert or overwrite a key inside a named section of the document,
creating the section (at the end) when it does not exist. -/
def docInsertKV (s k : Str) (v : Option Str) : Doc → Doc
  | [] => [(s, [(k, v)])]
  | (s', sec) :: rest =>
    if s' = s then (s', secInsert k v sec) :: rest
    else (s', sec) :: docInsertKV s k v rest

/-- Ensure a section of the given name exists, creating an empty one
(at the end) when absent; an existing section is left untouched. -/
def ensureSec (s : Str) : Doc → Doc
  | [] => [(s, [])]
  | (s', sec) :: rest =>
    if s' = s then (s', sec) :: rest else (s', sec) :: ensureSec s rest

/-- Modelled from the spec: the canonical name of the Default Section. -/
def defaultName : Str := strL "default"

/-- Modelled from the spec: a fresh document, with the always-present
Default Section. -/
def newDoc : Doc := [(defaultName, [])]

/-- Modelled from the spec (§4.2): the Document Builder.  Streams over the
lines keeping the current section name (initially the default section),
aborting with the 1-based line number on the first malformed header. -/
def buildGo : List Str → Str → Doc → Nat → Except Nat Doc
  | [], _, doc, _ => .ok doc
  | l :: ls, cur, doc, n =>
    match classify l with
    | .blank => buildGo ls cur doc (n + 1)
    | .comment => buildGo ls cur doc (n + 1)
    | .malformed => .error n
    | .header nm => buildGo ls nm (ensureSec nm doc) (n + 1)
    | .entry k v => buildGo ls cur (docInsertKV cur k v doc) (n + 1)

/-- Modelled from the spec: parse a whole text into a Document, or fail
with the line number of the first malformed header. -/
def parse (text : Str) : Except Nat Doc :=
  buildGo (splitLines text) defaultName newDoc 1

/-- Parse from a Lean string. -/
def parseIni (s : String) : Except Nat Doc := parse s.data

/-- Core lookup on canonical names (section then key), two-level optional:
outer `none` when the section or key is missing, inner value slot otherwise. -/
def getRaw (doc : Doc) (s k : Str) : Option (Option Str) :=
  match docGet (canon s) doc with
  | none => none
  | some sec => secGet (canon k) sec

/-- Modelled from the spec: `get`, the case-insensitive lookup; section and
key are canonicalized exactly as insertion does. -/
def get (doc : Doc) (s k : String) : Option (Option Str) :=
  getRaw doc s.data k.data

/-- Value of a list of decimal digits; `none` as soon as a non-digit occurs. -/
def digitsValGo : Nat → Str → Option Nat
  | acc, [] => some acc
  | acc, c :: rest =>
    if c.isDigit then digitsValGo (acc * 10 + (c.toNat - 48)) rest else none

/-- Value of a nonempty all-digit string; `none` on empty input or on any
non-digit character. -/
def digitsVal : Str → Option Nat
  | [] => none
  | c :: rest => digitsValGo 0 (c :: rest)

/-- Total digit-list value (used on strings already known to be digits). -/
def digitsValD (s : Str) : Nat :=
  s.foldl (fun a c => a * 10 + (c.toNat - 48)) 0

/-- Modelled from the spec: base-10 signed 64-bit integer parsing
(optional sign, then digits only; fractional and exponent forms are
rejected because a dot or an exponent letter is not a digit). -/
def parseI64 (s : Str) : Option Int :=
  match s with
  | [] => none
  | c :: rest =>
    if c = '+' then
      (digitsVal rest).bind fun n =>
        if n ≤ 2 ^ 63 - 1 then some (Int.ofNat n) else none
    else if c = '-' then
      (digitsVal rest).bind fun n =>
        if n ≤ 2 ^ 63 then some (-(Int.ofNat n)) else none
    else
      (digitsVal (c :: rest)).bind fun n =>
        if n ≤ 2 ^ 63 - 1 then some (Int.ofNat n) else none

/-- Modelled from the spec: base-10 unsigned 64-bit integer parsing. -/
def parseU64 (s : Str) : Option Nat :=
  match s with
  | [] => none
  | c :: rest =>
    if c = '+' then
      (digitsVal rest).bind fun n => if n ≤ 2 ^ 64 - 1 then some n else none
    else
      (digitsVal (c :: rest)).bind fun n =>
        if n ≤ 2 ^ 64 - 1 then some n else none

/-- Exponent part of a float literal: optional sign then digits, scaling
the mantissa by the corresponding power of ten. -/
def expPart (m : ℚ) (r : Str) : Option ℚ :=
  if r.head? = some '-' then (digitsVal r.tail).map fun e => m / 10 ^ e
  else if r.head? = some '+' then (digitsVal r.tail).map fun e => m * 10 ^ e
  else (digitsVal r).map fun e => m * 10 ^ e

/-- Sign handling of a float literal: the sign factor and the rest. -/
def floatSign (s : Str) : ℚ × Str :=
  if s.head? = some '-' then (-1, s.tail)
  else if s.head? = some '+' then (1, s.tail)
  else (1, s)

/-- Tail of a float literal after the mantissa: empty, or an exponent
marker followed by an exponent part. -/
def floatExp (m : ℚ) : Str → Option ℚ
  | [] => some m
  | 'e' :: r => expPart m r
  | 'E' :: r => expPart m r
  | _ => none

/-- Fractional part and exponent of a float literal, given the mantissa
sign-and-integer value and the rest after the integer digits. -/
def floatAfterInt (m : ℚ) (sgn : ℚ) : Str → Option ℚ
  | '.' :: r =>
    floatExp (m + sgn * (digitsValD (r.takeWhile Char.isDigit) : ℚ)
        / 10 ^ (r.takeWhile Char.isDigit).length)
      (r.dropWhile Char.isDigit)
  | r => floatExp m r

/-- Modelled from the spec: base-10 float-literal parsing (exact rational
value): optional sign, integer digits, optional fractional part after a
dot, optional exponent part; fractional and exponent forms are accepted. -/
def parseFloat (s : Str) : Option ℚ :=
  if ((floatSign s).2.takeWhile Char.isDigit) = [] then none
  else
    floatAfterInt
      ((floatSign s).1 * (digitsValD ((floatSign s).2.takeWhile Char.isDigit) : ℚ))
      (floatSign s).1
      ((floatSign s).2.dropWhile Char.isDigit)

/-- Modelled from the spec: `getbool` — case-insensitive match against the
true set and the false set; any other present string is a parse error
carrying the offending string; a missing key or an absent value slot gives
`Ok None`. -/
def getbool (doc : Doc) (s k : String) : Except Str (Option Bool) :=
  match getRaw doc s.data k.data with
  | none => .ok none
  | some none => .ok none
  | some (some v) =>
    if lower v ∈ [strL "true", strL "yes", strL "on", strL "1"] then
      .ok (some true)
    else if lower v ∈ [strL "false", strL "no", strL "off", strL "0"] then
      .ok (some false)
    else .error v

/-- Modelled from the spec: `getint` — `Ok None` on a missing key or absent
value slot, a parse error carrying the offending string on coercion
failure. -/
def getint (doc : Doc) (s k : String) : Except Str (Option Int) :=
  match getRaw doc s.data k.data with
  | none => .ok none
  | some none => .ok none
  | some (some v) =>
    match parseI64 v with
    | some n => .ok (some n)
    | none => .error v

/-- Modelled from the spec: `getuint`. -/
def getuint (doc : Doc) (s k : String) : Except Str (Option Nat) :=
  match getRaw doc s.data k.data with
  | none => .ok none
  | some none => .ok none
  | some (some v) =>
    match parseU64 v with
    | some n => .ok (some n)
    | none => .error v

/-- Modelled from the spec: `getfloat` (exact rational value). -/
def getfloat (doc : Doc) (s k : String) : Except Str (Option ℚ) :=
  match getRaw doc s.data k.data with
  | none => .ok none
  | some none => .ok none
  | some (some v) =>
    match parseFloat v with
    | some q => .ok (some q)
    | none => .error v

/-- Modelled from the spec (§4.4): render one entry, `key<delimiter>value`
when the value is present and the bare key when the value slot is absent. -/
def serEntry (d : Char) (kv : Str × Option Str) : Str :=
  match kv.2 with
  | none => kv.1
  | some v => kv.1 ++ d :: v

/-- Modelled from the spec (§4.4): render one non-default section — the
bracketed header line, then its entries. -/
def serSection (d : Char) (nsec : Str × Sec) : List Str :=
  ('[' :: nsec.1 ++ [']']) :: nsec.2.map (serEntry d)

/-- Modelled from the spec (§4.4): the lines of the serialized document —
the default section's entries first without a header, then every other
section in insertion order. -/
def serLines (d : Char) (doc : Doc) : List Str :=
  (match docGet defaultName doc with
   | some sec => sec.map (serEntry d)
   | none => []) ++
  (doc.filter fun p => decide (p.1 ≠ defaultName)).flatMap (serSection d)

/-- Modelled from the spec (§4.4): the Serializer. -/
def serialize (d : Char) (doc : Doc) : Str := joinLines (serLines d doc)

/-- One top-level item of a Rust source file, at the granularity needed to
state what `src/lib.rs` contains. -/
inductive RustItem where
  | docText : RustItem
  | pubUseReexport (crateName : String) : RustItem
  | mcrDecl (nm : String) (exported : Bool) : RustItem
  | fnDef (nm : String) (isPub : Bool) : RustItem
  | tyDef (nm : String) (isPub : Bool) : RustItem
  | implBlock (nm : String) : RustItem
deriving DecidableEq

/-- The item list of this repository's `src/lib.rs`: the crate doc comment,
the re-export `pub use configparser;`, and a private (un-exported, bodyless)
`macro_rules` stub named `ini`. -/
def libRsItems : List RustItem :=
  [.docText, .pubUseReexport "configparser", .mcrDecl "ini" false]

/-- Whether an item contributes to the crate's public surface. -/
def isPublicApi : RustItem → Bool
  | .pubUseReexport _ => true
  | .mcrDecl _ exported => exported
  | .fnDef _ isPub => isPub
  | .tyDef _ isPub => isPub
  | .implBlock _ => false
  | .docText => false

/-- Whether an item defines parsing, storage, or serialization logic of its
own (function bodies, data types, impl blocks). -/
def definesLogic : RustItem → Bool
  | .fnDef _ _ => true
  | .tyDef _ _ => true
  | .implBlock _ => true
  | _ => false

/-- The head constraint under which a trimmed line is classified as an
entry: an empty key is fine, and a nonempty key must not start with the
header or comment markers. -/
def headOk : Str → Prop
  | [] => True
  | c :: _ => c ≠ '[' ∧ c ≠ ';' ∧ c ≠ '#'

instance : ∀ s, Decidable (headOk s)
  | [] => inferInstanceAs (Decidable True)
  | _ :: _ => inferInstanceAs (Decidable (_ ∧ _ ∧ _))

/-- The conditions under which a raw key text, concatenated with a
delimiter and a value, parses back as that entry: no delimiter inside the
key, no newline, and a head that is not a marker character. -/
def entryKeyOk (k : Str) : Prop :=
  '=' ∉ k ∧ '\n' ∉ k ∧ headOk (trim k)

instance (k : Str) : Decidable (entryKeyOk k) :=
  inferInstanceAs (Decidable (_ ∧ _ ∧ _))

/-- Fold a list of entries into a section by repeated insertion. -/
def secFold (s0 : Sec) (E : List (Str × Option Str)) : Sec :=
  E.foldl (fun s kv => secInsert kv.1 kv.2 s) s0

/-- Fold a list of entries into the section named `cur` of a document. -/
def docFold (cur : Str) (doc : Doc) (E : List (Str × Option Str)) : Doc :=
  E.foldl (fun d kv => docInsertKV cur kv.1 kv.2 d) doc

/-- A well-formed stored name: canonical, no closing bracket, no newline. -/
def WfName (nm : Str) : Prop := canon nm = nm ∧ ']' ∉ nm ∧ '\n' ∉ nm

/-- A well-formed stored entry, as produced by parsing: the key is canonical,
contains no delimiter and no newline, does not start with a marker
character, is nonempty when the value slot is absent, and a present value
is trimmed and newline-free. -/
structure WfEntry (k : Str) (v : Option Str) : Prop where
  kcanon : canon k = k
  keq : '=' ∉ k
  knl : '\n' ∉ k
  khead : headOk k
  kne : v = none → k ≠ []
  vwf : ∀ w, v = some w → trim w = w ∧ '\n' ∉ w

/-- A well-formed stored section: well-formed name, no duplicate keys,
well-formed entries. -/
structure WfSec (nm : Str) (sec : Sec) : Prop where
  nwf : WfName nm
  knodup : (sec.map Prod.fst).Nodup
  entries : ∀ kv ∈ sec, WfEntry kv.1 kv.2

/-- A well-formed document, as produced by parsing: the default section
comes first, section names are unique, and every section is well-formed. -/
structure Wf (doc : Doc) : Prop where
  hd : ∃ ds rest, doc = (defaultName, ds) :: rest
  snodup : (doc.map Prod.fst).Nodup
  secs : ∀ p ∈ doc, WfSec p.1 p.2

/-! ### Character-level lemmas -/

theorem lowerChar_ws (c : Char) : isWs (lowerChar c) = isWs c := by
  unfold lowerChar
  split <;> simp_all [isWs]

theorem lowerChar_lc_or_self (c : Char) :
    lowerChar c = c ∨ ('a' ≤ lowerChar c ∧ lowerChar c ≤ 'z') := by
  unfold lowerChar
  split <;> simp_all

theorem lowerChar_fix_of_lc {c : Char} (h1 : 'a' ≤ c) (h2 : c ≤ 'z') :
    lowerChar c = c := by
  unfold lowerChar
  split
  all_goals first
  | rfl
  | (subst_vars; exact absurd h1 (by decide))

theorem lowerChar_idem (c : Char) : lowerChar (lowerChar c) = lowerChar c := by
  rcases lowerChar_lc_or_self c with h | h
  · simp only [h]
  · exact lowerChar_fix_of_lc h.1 h.2

theorem lowerChar_eq_special {c d : Char} (hd : ¬('a' ≤ d ∧ d ≤ 'z'))
    (h : lowerChar c = d) : c = d := by
  rcases lowerChar_lc_or_self c with h' | h'
  · rw [← h', h]
  · exact absurd (h ▸ h') hd

/-! ### Lowercasing a string -/

theorem lower_nil : lower [] = [] := rfl

theorem lower_cons (c : Char) (s : Str) :
    lower (c :: s) = lowerChar c :: lower s := rfl

theorem lower_append (a b : Str) : lower (a ++ b) = lower a ++ lower b :=
  List.map_append _ a b

theorem lower_idem (s : Str) : lower (lower s) = lower s := by
  unfold lower
  rw [List.map_map]
  exact List.map_congr_left fun c _ => lowerChar_idem c

theorem not_mem_lower_special {d : Char} (hd : ¬('a' ≤ d ∧ d ≤ 'z'))
    {s : Str} (h : d ∉ s) : d ∉ lower s := by
  intro hm
  rcases List.mem_map.mp hm with ⟨c, hc, hce⟩
  exact h (lowerChar_eq_special hd hce ▸ hc)

/-! ### Trimming -/

theorem dropWhile_head_false {p : α → Bool} {l : List α} {a : α} {t : List α}
    (h : List.dropWhile p l = a :: t) : p a = false := by
  induction l with
  | nil => simp at h
  | cons x xs ih =>
    rw [List.dropWhile_cons] at h
    by_cases hx : p x = true
    · rw [if_pos hx] at h; exact ih h
    · rw [if_neg hx] at h
      cases h
      exact Bool.eq_false_iff.mpr hx

theorem dropWhile_idem {p : α → Bool} (l : List α) :
    List.dropWhile p (List.dropWhile p l) = List.dropWhile p l := by
  induction l with
  | nil => rfl
  | cons x xs ih =>
    rw [List.dropWhile_cons]
    by_cases hx : p x = true
    · rw [if_pos hx]; exact ih
    · rw [if_neg hx, List.dropWhile_cons, if_neg hx]

theorem dropWhile_append_pivot {p : α → Bool} {c : α} (hc : p c = false)
    (a b : List α) :
    List.dropWhile p (a ++ c :: b) = List.dropWhile p a ++ c :: b := by
  induction a with
  | nil => simp [List.dropWhile_cons, hc]
  | cons x xs ih =>
    rw [List.cons_append, List.dropWhile_cons, List.dropWhile_cons]
    by_cases hx : p x = true
    · rw [if_pos hx, if_pos hx, ih]
    · rw [if_neg hx, if_neg hx, List.cons_append]

theorem trimL_nil : trimL [] = [] := rfl

theorem trimL_idem (s : Str) : trimL (trimL s) = trimL s := dropWhile_idem s

theorem trimL_head {s : Str} {c : Char} {t : Str} (h : trimL s = c :: t) :
    isWs c = false := dropWhile_head_false h

theorem trimL_append_pivot {c : Char} (hc : isWs c = false) (a b : Str) :
    trimL (a ++ c :: b) = trimL a ++ c :: b := dropWhile_append_pivot hc a b

theorem trimL_sub {s : Str} : ∀ {c : Char}, c ∈ trimL s → c ∈ s :=
  fun h => (List.dropWhile_sublist isWs).subset h

theorem trimR_nil : trimR [] = [] := rfl

theorem trimR_idem (s : Str) : trimR (trimR s) = trimR s := by
  unfold trimR
  rw [List.reverse_reverse, dropWhile_idem]

theorem trimR_append_pivot {c : Char} (hc : isWs c = false) (a b : Str) :
    trimR (a ++ c :: b) = a ++ c :: trimR b := by
  unfold trimR
  rw [List.reverse_append, List.reverse_cons, List.append_assoc,
    List.singleton_append, dropWhile_append_pivot hc, List.reverse_append,
    List.reverse_cons, List.reverse_reverse, List.append_assoc,
    List.singleton_append]

theorem trimR_cons {c : Char} (hc : isWs c = false) (b : Str) :
    trimR (c :: b) = c :: trimR b := trimR_append_pivot hc [] b

theorem trimR_sub {s : Str} : ∀ {c : Char}, c ∈ trimR s → c ∈ s := by
  intro c h
  unfold trimR at h
  rw [List.mem_reverse] at h
  exact List.mem_reverse.mp ((List.dropWhile_sublist isWs).subset h)

theorem trimL_all_ws {s : Str} (h : ∀ c ∈ s, isWs c = true) : trimL s = [] :=
  List.dropWhile_eq_nil_iff.mpr h

theorem trimR_all_ws {s : Str} (h : ∀ c ∈ s, isWs c = true) : trimR s = [] := by
  unfold trimR
  rw [List.dropWhile_eq_nil_iff.mpr fun c hc => h c (List.mem_reverse.mp hc)]
  rfl

theorem trimL_trimR_comm (s : Str) : trimL (trimR s) = trimR (trimL s) := by
  cases hs : trimL s with
  | nil =>
    have hws : ∀ c ∈ s, isWs c = true := List.dropWhile_eq_nil_iff.mp hs
    rw [trimR_all_ws hws, trimL_nil, trimR_nil]
  | cons c w =>
    have hc : isWs c = false := trimL_head hs
    have hdecomp : s.takeWhile isWs ++ c :: w = s := by
      rw [← hs]; exact List.takeWhile_append_dropWhile isWs s
    have hws : ∀ x ∈ s.takeWhile isWs, isWs x = true :=
      fun x hx => List.mem_takeWhile_imp hx
    calc trimL (trimR s)
        = trimL (trimR (s.takeWhile isWs ++ c :: w)) := by rw [hdecomp]
      _ = trimL (s.takeWhile isWs ++ c :: trimR w) := by
            rw [trimR_append_pivot hc]
      _ = trimL (s.takeWhile isWs) ++ c :: trimR w := trimL_append_pivot hc _ _
      _ = c :: trimR w := by
            rw [trimL_all_ws hws, List.nil_append]
      _ = trimR (c :: w) := (trimR_cons hc w).symm

theorem trim_nil : trim [] = [] := rfl

theorem trim_idem (s : Str) : trim (trim s) = trim s := by
  unfold trim
  rw [trimL_trimR_comm, trimR_idem, trimL_idem]

theorem trim_trimR (s : Str) : trim (trimR s) = trim s := by
  unfold trim
  rw [trimL_trimR_comm, trimR_idem]

theorem trim_trimL (s : Str) : trim (trimL s) = trim s := by
  unfold trim
  rw [trimL_idem]

theorem trim_head {s : Str} {c : Char} {t : Str} (h : trim s = c :: t) :
    isWs c = false := by
  unfold trim at h
  cases hL : trimL s with
  | nil => rw [hL, trimR_nil] at h; cases h
  | cons x xs =>
    have hx : isWs x = false := trimL_head hL
    rw [hL, trimR_cons hx] at h
    cases h
    exact hx

theorem trim_sub {s : Str} : ∀ {c : Char}, c ∈ trim s → c ∈ s :=
  fun h => trimL_sub (trimR_sub h)

/-! ### Canonicalization -/

theorem lower_trimL_comm (s : Str) : trimL (lower s) = lower (trimL s) := by
  induction s with
  | nil => rfl
  | cons c t ih =>
    rw [lower_cons]
    unfold trimL at ih ⊢
    rw [List.dropWhile_cons, List.dropWhile_cons, lowerChar_ws]
    by_cases hc : isWs c = true
    · rw [if_pos hc, if_pos hc, ih]
    · rw [if_neg hc, if_neg hc, lower_cons]

theorem lower_trimR_comm (s : Str) : trimR (lower s) = lower (trimR s) := by
  have h1 : (lower s).reverse = lower s.reverse := (List.map_reverse _ _).symm
  calc trimR (lower s)
      = (trimL ((lower s).reverse)).reverse := rfl
    _ = (trimL (lower s.reverse)).reverse := by rw [h1]
    _ = (lower (trimL s.reverse)).reverse := by rw [lower_trimL_comm]
    _ = lower ((trimL s.reverse).reverse) := (List.map_reverse _ _).symm
    _ = lower (trimR s) := rfl

theorem lower_trim_comm (s : Str) : trim (lower s) = lower (trim s) := by
  unfold trim
  rw [lower_trimL_comm, lower_trimR_comm]

theorem canon_idem (s : Str) : canon (canon s) = canon s := by
  unfold canon
  rw [lower_trim_comm, trim_idem, lower_idem]

theorem canon_nil : canon [] = [] := rfl

theorem canon_fix_trim {s : Str} (h : canon s = s) : trim s = s := by
  have h2 : trim (canon s) = canon s := by
    unfold canon
    rw [lower_trim_comm, trim_idem]
  rw [h] at h2
  exact h2

theorem canon_trimL (s : Str) : canon (trimL s) = canon s := by
  unfold canon
  rw [trim_trimL]

theorem canon_trimR (s : Str) : canon (trimR s) = canon s := by
  unfold canon
  rw [trim_trimR]

theorem not_mem_canon_special {d : Char} (hd : ¬('a' ≤ d ∧ d ≤ 'z'))
    {s : Str} (h : d ∉ s) : d ∉ canon s :=
  not_mem_lower_special hd fun hm => h (trim_sub hm)

/-! ### Splitting at the first delimiter -/

theorem sof_not_mem {d : Char} {s : Str} (h : d ∉ s) :
    splitOnFirst d s = none := by
  induction s with
  | nil => rfl
  | cons c rest ih =>
    unfold splitOnFirst
    rw [if_neg (fun hc => h (List.mem_cons.mpr (Or.inl hc.symm))),
      ih (fun hm => h (List.mem_cons_of_mem c hm))]

theorem sof_none_not_mem {d : Char} {s : Str} (h : splitOnFirst d s = none) :
    d ∉ s := by
  induction s with
  | nil => simp
  | cons c rest ih =>
    unfold splitOnFirst at h
    by_cases hc : c = d
    · rw [if_pos hc] at h; cases h
    · rw [if_neg hc] at h
      intro hm
      rcases List.mem_cons.mp hm with he | hm'
      · exact hc he.symm
      · cases hsof : splitOnFirst d rest with
        | none => exact ih hsof hm'
        | some p => rw [hsof] at h; cases h

theorem sof_app {d : Char} {a : Str} (h : d ∉ a) (b : Str) :
    splitOnFirst d (a ++ d :: b) = some (a, b) := by
  induction a with
  | nil => simp [splitOnFirst]
  | cons c rest ih =>
    rw [List.cons_append]
    unfold splitOnFirst
    rw [if_neg (fun hc => h (List.mem_cons.mpr (Or.inl hc.symm))),
      ih (fun hm => h (List.mem_cons_of_mem c hm))]

theorem sof_eq_some {d : Char} {s a b : Str} (h : splitOnFirst d s = some (a, b)) :
    s = a ++ d :: b ∧ d ∉ a := by
  induction s generalizing a with
  | nil => cases h
  | cons c rest ih =>
    unfold splitOnFirst at h
    by_cases hc : c = d
    · rw [if_pos hc] at h
      cases h
      subst hc
      exact ⟨rfl, List.not_mem_nil c⟩
    · rw [if_neg hc] at h
      cases hsof : splitOnFirst d rest with
      | none => rw [hsof] at h; cases h
      | some p =>
        rw [hsof] at h
        cases h
        obtain ⟨h1, h2⟩ := ih hsof
        refine ⟨by rw [List.cons_append, ← h1], ?_⟩
        intro hm
        rcases List.mem_cons.mp hm with he | hm'
        · exact hc he.symm
        · exact h2 hm'

/-! ### Lines -/

theorem splitLines_no_nl (s : Str) : ∀ l ∈ splitLines s, '\n' ∉ l := by
  induction s with
  | nil =>
    intro l hl
    simp only [splitLines, List.mem_singleton] at hl
    simp [hl]
  | cons c rest ih =>
    intro l hl
    unfold splitLines at hl
    by_cases hc : c = '\n'
    · rw [if_pos hc] at hl
      rcases List.mem_cons.mp hl with he | hm
      · simp [he]
      · exact ih l hm
    · rw [if_neg hc] at hl
      cases hsl : splitLines rest with
      | nil =>
        rw [hsl] at hl
        simp only [List.mem_singleton] at hl
        subst hl
        intro hm
        rcases List.mem_cons.mp hm with he | hm'
        · exact hc he.symm
        · simp at hm'
      | cons l0 ls =>
        rw [hsl] at hl
        rcases List.mem_cons.mp hl with he | hm
        · subst he
          intro hmem
          rcases List.mem_cons.mp hmem with he' | hm'
          · exact hc he'.symm
          · exact ih l0 (hsl ▸ List.mem_cons_self l0 ls) hm'
        · exact ih l (hsl ▸ List.mem_cons_of_mem l0 hm)

theorem splitLines_single {l : Str} (h : '\n' ∉ l) : splitLines l = [l] := by
  induction l with
  | nil => rfl
  | cons c rest ih =>
    unfold splitLines
    rw [if_neg (fun hc => h (List.mem_cons.mpr (Or.inl hc.symm))),
      ih (fun hm => h (List.mem_cons_of_mem c hm))]

theorem splitLines_app {l : Str} (h : '\n' ∉ l) (t : Str) :
    splitLines (l ++ '\n' :: t) = l :: splitLines t := by
  induction l with
  | nil => simp [splitLines]
  | cons c rest ih =>
    rw [List.cons_append]
    simp only [splitLines,
      if_neg (show ¬c = '\n' from fun hc => h (List.mem_cons.mpr (Or.inl hc.symm))),
      ih (fun hm => h (List.mem_cons_of_mem c hm))]

theorem splitLines_joinLines {ls : List Str} (hne : ls ≠ [])
    (h : ∀ l ∈ ls, '\n' ∉ l) : splitLines (joinLines ls) = ls := by
  induction ls with
  | nil => exact absurd rfl hne
  | cons l ls' ih =>
    cases ls' with
    | nil => exact splitLines_single (h l (List.mem_cons_self l []))
    | cons l2 ls'' =>
      show splitLines (l ++ '\n' :: joinLines (l2 :: ls'')) = _
      rw [splitLines_app (h l (List.mem_cons_self _ _)),
        ih (by simp) (fun x hx => h x (List.mem_cons_of_mem l hx))]

/-! ### Classification lemmas -/

theorem isWs_eq : isWs '=' = false := rfl

theorem classify_nil : classify [] = .blank := rfl

theorem trim_entry_line (k v : Str) :
    trim (k ++ '=' :: v) = trimL k ++ '=' :: trimR v := by
  unfold trim
  rw [trimL_append_pivot isWs_eq, trimR_append_pivot isWs_eq]

theorem canon_trim (s : Str) : canon (trim s) = canon s := by
  unfold canon
  rw [trim_idem]

theorem classify_entry_delim {k : Str} (hk : '=' ∉ k) (hh : headOk (trim k))
    (v : Str) : classify (k ++ '=' :: v) = .entry (canon k) (some (trim v)) := by
  have htel := trim_entry_line k v
  cases hL : trimL k with
  | nil =>
    have htk : trim k = [] := by unfold trim; rw [hL, trimR_nil]
    have hck : canon k = [] := by unfold canon; rw [htk]; rfl
    rw [hL, List.nil_append] at htel
    have hs : splitOnFirst '=' ('=' :: trimR v) = some ([], trimR v) := by
      unfold splitOnFirst; rw [if_pos rfl]
    simp only [classify, htel,
      if_neg (show ¬(('=' : Char) = ';' ∨ ('=' : Char) = '#') from by decide),
      if_neg (show ¬('=' : Char) = '[' from by decide), hs, trim_trimR, hck,
      canon_nil]
  | cons c k' =>
    have hc : isWs c = false := trimL_head hL
    have htk : trim k = c :: trimR k' := by unfold trim; rw [hL, trimR_cons hc]
    rw [htk] at hh
    obtain ⟨h1, h2, h3⟩ := hh
    rw [hL, List.cons_append] at htel
    have hnm : '=' ∉ c :: k' := by rw [← hL]; exact fun hm => hk (trimL_sub hm)
    have hs : splitOnFirst '=' ((c :: k') ++ '=' :: trimR v)
        = some (c :: k', trimR v) := sof_app hnm _
    rw [List.cons_append] at hs
    have hck : canon (c :: k') = canon k := by rw [← hL, canon_trimL]
    simp only [classify, htel,
      if_neg (show ¬(c = ';' ∨ c = '#') from fun hor => hor.elim h2 h3),
      if_neg h1, hs, trim_trimR, hck]

theorem classify_bare {k : Str} (hk : '=' ∉ k) (hne : trim k ≠ [])
    (hh : headOk (trim k)) : classify k = .entry (canon k) none := by
  cases htk : trim k with
  | nil => exact absurd htk hne
  | cons c rest =>
    rw [htk] at hh
    obtain ⟨h1, h2, h3⟩ := hh
    have hnm : '=' ∉ c :: rest := by
      rw [← htk]; exact fun hm => hk (trim_sub hm)
    have hcan : canon (c :: rest) = canon k := by rw [← htk, canon_trim]
    simp only [classify, htk,
      if_neg (show ¬(c = ';' ∨ c = '#') from fun hor => hor.elim h2 h3),
      if_neg h1, sof_not_mem hnm, hcan]

theorem classify_header {S : Str} (hS : ']' ∉ S) :
    classify ('[' :: S ++ [']']) = .header (canon S) := by
  have ht : trim ('[' :: (S ++ [']'])) = '[' :: (S ++ [']']) := by
    unfold trim
    have h1 : trimL ('[' :: (S ++ [']'])) = '[' :: (S ++ [']']) := by
      unfold trimL
      rw [List.dropWhile_cons, if_neg (by decide)]
    rw [h1]
    have h2 : '[' :: (S ++ [']']) = ('[' :: S) ++ ']' :: [] := by simp
    rw [h2, trimR_append_pivot (by decide), trimR_nil]
  rw [List.cons_append]
  simp only [classify, ht,
    if_neg (show ¬(('[' : Char) = ';' ∨ ('[' : Char) = '#') from by decide),
    sof_app hS, if_true]

theorem classify_malformed {S : Str} (hS : ']' ∉ S) :
    classify ('[' :: S) = .malformed := by
  have ht : trim ('[' :: S) = '[' :: trimR S := by
    unfold trim
    have h1 : trimL ('[' :: S) = '[' :: S := by
      unfold trimL
      rw [List.dropWhile_cons, if_neg (by decide)]
    rw [h1, trimR_cons (by decide)]
  simp only [classify, ht,
    if_neg (show ¬(('[' : Char) = ';' ∨ ('[' : Char) = '#') from by decide),
    sof_not_mem (show ']' ∉ trimR S from fun hm => hS (trimR_sub hm)), if_true]

theorem classify_malformed_shape {l : Str} (h : classify l = .malformed) :
    ∃ r, trim l = '[' :: r ∧ ']' ∉ r := by
  cases htl : trim l with
  | nil =>
    simp only [classify, htl] at h
    exact LineKind.noConfusion h
  | cons c rest =>
    simp only [classify, htl] at h
    by_cases h1 : c = ';' ∨ c = '#'
    · rw [if_pos h1] at h
      exact LineKind.noConfusion h
    · rw [if_neg h1] at h
      by_cases h2 : c = '['
      · rw [if_pos h2] at h
        cases hsof : splitOnFirst ']' rest with
        | none =>
          exact ⟨rest, ⟨by rw [h2], sof_none_not_mem hsof⟩⟩
        | some p =>
          obtain ⟨nm, tl⟩ := p
          rw [hsof] at h
          exact LineKind.noConfusion h
      · rw [if_neg h2] at h
        cases hsof : splitOnFirst '=' (c :: rest) with
        | none =>
          rw [hsof] at h
          exact LineKind.noConfusion h
        | some p =>
          obtain ⟨a, b⟩ := p
          rw [hsof] at h
          exact LineKind.noConfusion h

/-! ### Association-list lemmas -/

theorem secGet_cons_pos {k0 k : Str} (he : k0 = k) (v0 : Option Str)
    (rest : Sec) : secGet k ((k0, v0) :: rest) = some v0 := by
  simp only [secGet, if_pos he]

theorem secGet_cons_neg {k0 k : Str} (he : ¬k0 = k) (v0 : Option Str)
    (rest : Sec) : secGet k ((k0, v0) :: rest) = secGet k rest := by
  simp only [secGet, if_neg he]

theorem secInsert_cons_pos {k0 k : Str} (he : k0 = k) (v0 v : Option Str)
    (rest : Sec) : secInsert k v ((k0, v0) :: rest) = (k0, v) :: rest := by
  simp only [secInsert, if_pos he]

theorem secInsert_cons_neg {k0 k : Str} (he : ¬k0 = k) (v0 v : Option Str)
    (rest : Sec) :
    secInsert k v ((k0, v0) :: rest) = (k0, v0) :: secInsert k v rest := by
  simp only [secInsert, if_neg he]

theorem docGet_cons_pos {s0 s : Str} (he : s0 = s) (sec0 : Sec)
    (rest : Doc) : docGet s ((s0, sec0) :: rest) = some sec0 := by
  simp only [docGet, if_pos he]

theorem docGet_cons_neg {s0 s : Str} (he : ¬s0 = s) (sec0 : Sec)
    (rest : Doc) : docGet s ((s0, sec0) :: rest) = docGet s rest := by
  simp only [docGet, if_neg he]

theorem docInsertKV_cons_pos {s0 s : Str} (he : s0 = s) (k : Str)
    (v : Option Str) (sec0 : Sec) (rest : Doc) :
    docInsertKV s k v ((s0, sec0) :: rest)
      = (s0, secInsert k v sec0) :: rest := by
  simp only [docInsertKV, if_pos he]

theorem docInsertKV_cons_neg {s0 s : Str} (he : ¬s0 = s) (k : Str)
    (v : Option Str) (sec0 : Sec) (rest : Doc) :
    docInsertKV s k v ((s0, sec0) :: rest)
      = (s0, sec0) :: docInsertKV s k v rest := by
  simp only [docInsertKV, if_neg he]

theorem ensureSec_cons_pos {s0 s : Str} (he : s0 = s) (sec0 : Sec)
    (rest : Doc) : ensureSec s ((s0, sec0) :: rest) = (s0, sec0) :: rest := by
  simp only [ensureSec, if_pos he]

theorem ensureSec_cons_neg {s0 s : Str} (he : ¬s0 = s) (sec0 : Sec)
    (rest : Doc) :
    ensureSec s ((s0, sec0) :: rest) = (s0, sec0) :: ensureSec s rest := by
  simp only [ensureSec, if_neg he]

theorem secInsert_not_mem {k : Str} {sec : Sec}
    (h : k ∉ sec.map Prod.fst) (v : Option Str) :
    secInsert k v sec = sec ++ [(k, v)] := by
  induction sec with
  | nil => rfl
  | cons kv rest ih =>
    obtain ⟨k0, v0⟩ := kv
    simp only [List.map_cons, List.mem_cons, not_or] at h
    rw [secInsert_cons_neg (fun he : k0 = k => h.1 he.symm), ih h.2,
      List.cons_append]

theorem secGet_insert_self (k : Str) (v : Option Str) (sec : Sec) :
    secGet k (secInsert k v sec) = some v := by
  induction sec with
  | nil => simp [secInsert, secGet]
  | cons kv rest ih =>
    obtain ⟨k0, v0⟩ := kv
    by_cases he : k0 = k
    · rw [secInsert_cons_pos he, secGet_cons_pos he]
    · rw [secInsert_cons_neg he, secGet_cons_neg he, ih]

theorem secGet_insert_other {q k : Str} (hne : q ≠ k) (v : Option Str)
    (sec : Sec) : secGet q (secInsert k v sec) = secGet q sec := by
  induction sec with
  | nil => simp [secInsert, secGet, if_neg (fun he : k = q => hne he.symm)]
  | cons kv rest ih =>
    obtain ⟨k0, v0⟩ := kv
    by_cases he : k0 = k
    · rw [secInsert_cons_pos he,
        secGet_cons_neg (show ¬k0 = q from fun hx => hne (hx.symm.trans he)),
        secGet_cons_neg (show ¬k0 = q from fun hx => hne (hx.symm.trans he))]
    · rw [secInsert_cons_neg he]
      by_cases hq : k0 = q
      · rw [secGet_cons_pos hq, secGet_cons_pos hq]
      · rw [secGet_cons_neg hq, secGet_cons_neg hq, ih]

theorem secGet_not_mem {k : Str} {sec : Sec} (h : k ∉ sec.map Prod.fst) :
    secGet k sec = none := by
  induction sec with
  | nil => rfl
  | cons kv rest ih =>
    obtain ⟨k0, v0⟩ := kv
    simp only [List.map_cons, List.mem_cons, not_or] at h
    rw [secGet_cons_neg (fun he : k0 = k => h.1 he.symm)]
    exact ih h.2

theorem secGet_isSome_mem {k : Str} {sec : Sec}
    (h : (secGet k sec).isSome = true) : k ∈ sec.map Prod.fst := by
  by_cases hm : k ∈ sec.map Prod.fst
  · exact hm
  · rw [secGet_not_mem hm] at h; cases h

theorem secInsert_keys_of_mem {k : Str} {sec : Sec}
    (h : k ∈ sec.map Prod.fst) (v : Option Str) :
    (secInsert k v sec).map Prod.fst = sec.map Prod.fst := by
  induction sec with
  | nil => cases h
  | cons kv rest ih =>
    obtain ⟨k0, v0⟩ := kv
    by_cases he : k0 = k
    · rw [secInsert_cons_pos he, List.map_cons, List.map_cons]
    · rw [secInsert_cons_neg he, List.map_cons, List.map_cons]
      simp only [List.map_cons, List.mem_cons] at h
      exact congrArg (k0 :: ·) (ih (h.elim (fun h1 => absurd h1.symm he) id))

theorem mem_secInsert {kv : Str × Option Str} {k : Str} {v : Option Str}
    {sec : Sec} (h : kv ∈ secInsert k v sec) : kv ∈ sec ∨ kv = (k, v) := by
  induction sec with
  | nil =>
    simp only [secInsert, List.mem_singleton] at h
    exact Or.inr h
  | cons kv0 rest ih =>
    obtain ⟨k0, v0⟩ := kv0
    by_cases he : k0 = k
    · rw [secInsert_cons_pos he] at h
      exact (List.mem_cons.mp h).elim
        (fun h1 => Or.inr (by rw [h1, he]))
        (fun h2 => Or.inl (List.mem_cons_of_mem _ h2))
    · rw [secInsert_cons_neg he] at h
      exact (List.mem_cons.mp h).elim
        (fun h1 => Or.inl (List.mem_cons.mpr (Or.inl h1)))
        (fun h2 => (ih h2).elim (fun h3 => Or.inl (List.mem_cons_of_mem _ h3))
          Or.inr)

theorem docGet_pre {s : Str} {pre : Doc} (h : s ∉ pre.map Prod.fst)
    (sec : Sec) (post : Doc) :
    docGet s (pre ++ (s, sec) :: post) = some sec := by
  induction pre with
  | nil => simp [docGet]
  | cons p rest ih =>
    obtain ⟨s0, sec0⟩ := p
    simp only [List.map_cons, List.mem_cons, not_or] at h
    rw [List.cons_append, docGet_cons_neg (fun he : s0 = s => h.1 he.symm)]
    exact ih h.2

theorem docGet_not_mem {s : Str} {doc : Doc} (h : s ∉ doc.map Prod.fst) :
    docGet s doc = none := by
  induction doc with
  | nil => rfl
  | cons p rest ih =>
    obtain ⟨s0, sec0⟩ := p
    simp only [List.map_cons, List.mem_cons, not_or] at h
    rw [docGet_cons_neg (fun he : s0 = s => h.1 he.symm)]
    exact ih h.2

theorem docInsert_pre {s : Str} {pre : Doc} (h : s ∉ pre.map Prod.fst)
    (k : Str) (v : Option Str) (sec : Sec) (post : Doc) :
    docInsertKV s k v (pre ++ (s, sec) :: post)
      = pre ++ (s, secInsert k v sec) :: post := by
  induction pre with
  | nil => simp [docInsertKV]
  | cons p rest ih =>
    obtain ⟨s0, sec0⟩ := p
    simp only [List.map_cons, List.mem_cons, not_or] at h
    rw [List.cons_append,
      docInsertKV_cons_neg (fun he : s0 = s => h.1 he.symm), ih h.2,
      List.cons_append]

theorem docInsert_not_mem {s : Str} {doc : Doc} (h : s ∉ doc.map Prod.fst)
    (k : Str) (v : Option Str) :
    docInsertKV s k v doc = doc ++ [(s, [(k, v)])] := by
  induction doc with
  | nil => rfl
  | cons p rest ih =>
    obtain ⟨s0, sec0⟩ := p
    simp only [List.map_cons, List.mem_cons, not_or] at h
    rw [docInsertKV_cons_neg (fun he : s0 = s => h.1 he.symm), ih h.2,
      List.cons_append]

theorem docInsert_keys_of_mem {s : Str} {doc : Doc}
    (h : s ∈ doc.map Prod.fst) (k : Str) (v : Option Str) :
    (docInsertKV s k v doc).map Prod.fst = doc.map Prod.fst := by
  induction doc with
  | nil => cases h
  | cons p rest ih =>
    obtain ⟨s0, sec0⟩ := p
    by_cases he : s0 = s
    · rw [docInsertKV_cons_pos he, List.map_cons, List.map_cons]
    · rw [docInsertKV_cons_neg he, List.map_cons, List.map_cons]
      simp only [List.map_cons, List.mem_cons] at h
      exact congrArg (s0 :: ·) (ih (h.elim (fun h1 => absurd h1.symm he) id))

theorem mem_docInsert {p : Str × Sec} {s k : Str} {v : Option Str} {doc : Doc}
    (h : p ∈ docInsertKV s k v doc) :
    p ∈ doc ∨ (∃ sec, (s, sec) ∈ doc ∧ p = (s, secInsert k v sec))
      ∨ p = (s, [(k, v)]) := by
  induction doc with
  | nil =>
    simp only [docInsertKV, List.mem_singleton] at h
    exact Or.inr (Or.inr h)
  | cons p0 rest ih =>
    obtain ⟨s0, sec0⟩ := p0
    by_cases he : s0 = s
    · rw [docInsertKV_cons_pos he] at h
      exact (List.mem_cons.mp h).elim
        (fun h1 => Or.inr (Or.inl ⟨sec0, by rw [← he]; exact List.mem_cons_self _ _,
          by rw [h1, he]⟩))
        (fun h2 => Or.inl (List.mem_cons_of_mem _ h2))
    · rw [docInsertKV_cons_neg he] at h
      exact (List.mem_cons.mp h).elim
        (fun h1 => Or.inl (List.mem_cons.mpr (Or.inl h1)))
        (fun h2 => (ih h2).elim
          (fun h3 => Or.inl (List.mem_cons_of_mem _ h3))
          (fun h3 => h3.elim
            (fun h4 => Or.inr (Or.inl (by
              obtain ⟨sec, hm, hp⟩ := h4
              exact ⟨sec, List.mem_cons_of_mem _ hm, hp⟩)))
            (fun h4 => Or.inr (Or.inr h4))))

theorem ensureSec_of_mem {s : Str} {doc : Doc} (h : s ∈ doc.map Prod.fst) :
    ensureSec s doc = doc := by
  induction doc with
  | nil => cases h
  | cons p rest ih =>
    obtain ⟨s0, sec0⟩ := p
    by_cases he : s0 = s
    · rw [ensureSec_cons_pos he]
    · rw [ensureSec_cons_neg he]
      simp only [List.map_cons, List.mem_cons] at h
      rw [ih (h.elim (fun h1 => absurd h1.symm he) id)]

theorem ensureSec_not_mem {s : Str} {doc : Doc} (h : s ∉ doc.map Prod.fst) :
    ensureSec s doc = doc ++ [(s, [])] := by
  induction doc with
  | nil => rfl
  | cons p rest ih =>
    obtain ⟨s0, sec0⟩ := p
    simp only [List.map_cons, List.mem_cons, not_or] at h
    rw [ensureSec_cons_neg (fun he : s0 = s => h.1 he.symm), ih h.2,
      List.cons_append]

/-! ### Classification produces well-formed names and entries -/

theorem trimL_cons_nws {c : Char} (hc : isWs c = false) (x : Str) :
    trimL (c :: x) = c :: x := by
  unfold trimL
  rw [List.dropWhile_cons, if_neg (by rw [hc]; exact Bool.false_ne_true)]

theorem canon_cons_of_trimmed {c : Char} {rest : Str}
    (h : trim (c :: rest) = c :: rest) :
    canon (c :: rest) = lowerChar c :: lower rest := by
  unfold canon
  rw [h]
  rfl

theorem headOk_lowerChar {c : Char} (h1 : c ≠ '[') (h2 : c ≠ ';')
    (h3 : c ≠ '#') (t : Str) : headOk (lowerChar c :: t) :=
  ⟨fun he => h1 (lowerChar_eq_special (by decide) he),
   fun he => h2 (lowerChar_eq_special (by decide) he),
   fun he => h3 (lowerChar_eq_special (by decide) he)⟩

theorem wfName_defaultName : WfName defaultName := by
  refine ⟨?_, by decide, by decide⟩
  decide

theorem classify_entry_wf {l k : Str} {v : Option Str} (hnl : '\n' ∉ l)
    (hcl : classify l = .entry k v) : WfEntry k v := by
  cases htl : trim l with
  | nil =>
    simp only [classify, htl] at hcl
    exact LineKind.noConfusion hcl
  | cons c rest =>
    have htrim_fix : trim (c :: rest) = c :: rest := by rw [← htl, trim_idem]
    have hcw : isWs c = false := trim_head htl
    have hmem : ∀ x, x ∈ (c :: rest : Str) → x ∈ l := fun x hx =>
      trim_sub (show x ∈ trim l from by rw [htl]; exact hx)
    simp only [classify, htl] at hcl
    by_cases h1 : c = ';' ∨ c = '#'
    · rw [if_pos h1] at hcl; exact LineKind.noConfusion hcl
    · rw [if_neg h1] at hcl
      have h2a : c ≠ ';' := fun he => h1 (Or.inl he)
      have h2b : c ≠ '#' := fun he => h1 (Or.inr he)
      by_cases h2 : c = '['
      · rw [if_pos h2] at hcl
        cases hsof : splitOnFirst ']' rest with
        | none => rw [hsof] at hcl; exact LineKind.noConfusion hcl
        | some p =>
          obtain ⟨nm, tl⟩ := p
          rw [hsof] at hcl
          exact LineKind.noConfusion hcl
      · rw [if_neg h2] at hcl
        cases hsof : splitOnFirst '=' (c :: rest) with
        | none =>
          rw [hsof] at hcl
          injection hcl with hk hv
          rw [← hk, ← hv]
          have hnm : '=' ∉ (c :: rest : Str) := sof_none_not_mem hsof
          refine ⟨canon_idem _, not_mem_canon_special (by decide) hnm,
            not_mem_canon_special (by decide) (fun hm => hnl (hmem _ hm)),
            ?_, ?_, fun w hw => Option.noConfusion hw⟩
          · rw [canon_cons_of_trimmed htrim_fix]
            exact headOk_lowerChar h2 h2a h2b _
          · intro _
            rw [canon_cons_of_trimmed htrim_fix]
            exact List.cons_ne_nil _ _
        | some p =>
          obtain ⟨a, b⟩ := p
          rw [hsof] at hcl
          injection hcl with hk hv
          rw [← hk, ← hv]
          obtain ⟨hdec, hna⟩ := sof_eq_some hsof
          have hamem : ∀ x, x ∈ a → x ∈ l := fun x hx =>
            hmem x (by rw [hdec]; exact List.mem_append_left _ hx)
          have hbmem : ∀ x, x ∈ b → x ∈ l := fun x hx =>
            hmem x (by
              rw [hdec]
              exact List.mem_append_right _ (List.mem_cons_of_mem _ hx))
          refine ⟨canon_idem _, not_mem_canon_special (by decide) hna,
            not_mem_canon_special (by decide)
              (fun hm => hnl (hamem _ hm)), ?_,
            fun hcontra => Option.noConfusion hcontra,
            fun w hw => ?_⟩
          · cases ha : a with
            | nil => exact trivial
            | cons c0 a' =>
              rw [ha, List.cons_append] at hdec
              injection hdec with hc0 hrest
              have hcw0 : isWs c0 = false := by rw [← hc0]; exact hcw
              have hta : trim (c0 :: a') = c0 :: trimR a' := by
                unfold trim
                rw [trimL_cons_nws hcw0, trimR_cons hcw0]
              unfold canon
              rw [hta, lower_cons]
              refine headOk_lowerChar ?_ ?_ ?_ _
              · rw [← hc0]; exact h2
              · rw [← hc0]; exact h2a
              · rw [← hc0]; exact h2b
          · injection hw with hw'
            rw [← hw']
            exact ⟨trim_idem b, fun hm => hnl (hbmem _ (trim_sub hm))⟩

theorem classify_header_wf {l nm : Str} (hnl : '\n' ∉ l)
    (hcl : classify l = .header nm) : WfName nm := by
  cases htl : trim l with
  | nil =>
    simp only [classify, htl] at hcl
    exact LineKind.noConfusion hcl
  | cons c rest =>
    have hmem : ∀ x, x ∈ (c :: rest : Str) → x ∈ l := fun x hx =>
      trim_sub (show x ∈ trim l from by rw [htl]; exact hx)
    simp only [classify, htl] at hcl
    by_cases h1 : c = ';' ∨ c = '#'
    · rw [if_pos h1] at hcl; exact LineKind.noConfusion hcl
    · rw [if_neg h1] at hcl
      by_cases h2 : c = '['
      · rw [if_pos h2] at hcl
        cases hsof : splitOnFirst ']' rest with
        | none => rw [hsof] at hcl; exact LineKind.noConfusion hcl
        | some p =>
          obtain ⟨nm0, tl⟩ := p
          rw [hsof] at hcl
          injection hcl with hnm
          obtain ⟨hdec, hnr⟩ := sof_eq_some hsof
          have hnmem : ∀ x, x ∈ nm0 → x ∈ l := fun x hx =>
            hmem x (List.mem_cons_of_mem _ (by
              rw [hdec]; exact List.mem_append_left _ hx))
          rw [← hnm]
          exact ⟨canon_idem _, not_mem_canon_special (by decide) hnr,
            not_mem_canon_special (by decide)
              (fun hm => hnl (hnmem _ hm))⟩
      · rw [if_neg h2] at hcl
        cases hsof : splitOnFirst '=' (c :: rest) with
        | none => rw [hsof] at hcl; exact LineKind.noConfusion hcl
        | some p =>
          obtain ⟨a, b⟩ := p
          rw [hsof] at hcl
          exact LineKind.noConfusion hcl

/-! ### Parsing produces well-formed documents -/

theorem wfSec_secInsert {nm k : Str} {v : Option Str} {sec : Sec}
    (hs : WfSec nm sec) (he : WfEntry k v) : WfSec nm (secInsert k v sec) := by
  refine ⟨hs.nwf, ?_, ?_⟩
  · by_cases hm : k ∈ sec.map Prod.fst
    · rw [secInsert_keys_of_mem hm]
      exact hs.knodup
    · rw [secInsert_not_mem hm, List.map_append]
      refine List.Nodup.append hs.knodup (List.nodup_singleton k) ?_
      intro a ha hb
      simp only [List.map_cons, List.map_nil, List.mem_singleton] at hb
      exact hm (hb ▸ ha)
  · intro kv hkv
    refine (mem_secInsert hkv).elim (hs.entries kv) (fun he' => ?_)
    rw [he']
    exact he

theorem wf_ensureSec {doc : Doc} {nm : Str} (h : Wf doc) (hn : WfName nm) :
    Wf (ensureSec nm doc) := by
  by_cases hm : nm ∈ doc.map Prod.fst
  · rw [ensureSec_of_mem hm]
    exact h
  · rw [ensureSec_not_mem hm]
    refine ⟨?_, ?_, ?_⟩
    · obtain ⟨ds, rest, hdoc⟩ := h.hd
      exact ⟨ds, rest ++ [(nm, [])], by rw [hdoc, List.cons_append]⟩
    · rw [List.map_append]
      refine List.Nodup.append h.snodup (by simp) ?_
      intro a ha hb
      simp only [List.map_cons, List.map_nil, List.mem_singleton] at hb
      exact hm (hb ▸ ha)
    · intro p hp
      refine (List.mem_append.mp hp).elim (h.secs p) (fun hp' => ?_)
      simp only [List.mem_singleton] at hp'
      rw [hp']
      exact ⟨hn, List.nodup_nil, fun kv hkv => absurd hkv (List.not_mem_nil kv)⟩

theorem wf_docInsert {doc : Doc} {cur k : Str} {v : Option Str} (h : Wf doc)
    (hc : WfName cur) (he : WfEntry k v) : Wf (docInsertKV cur k v doc) := by
  by_cases hm : cur ∈ doc.map Prod.fst
  · refine ⟨?_, ?_, ?_⟩
    · obtain ⟨ds, rest, hdoc⟩ := h.hd
      rw [hdoc]
      by_cases hd0 : defaultName = cur
      · rw [docInsertKV_cons_pos hd0]
        exact ⟨secInsert k v ds, rest, rfl⟩
      · rw [docInsertKV_cons_neg hd0]
        exact ⟨ds, docInsertKV cur k v rest, rfl⟩
    · rw [docInsert_keys_of_mem hm]
      exact h.snodup
    · intro p hp
      refine (mem_docInsert hp).elim (h.secs p) (fun h' => h'.elim ?_ ?_)
      · intro h4
        obtain ⟨sec, hsm, hpe⟩ := h4
        rw [hpe]
        exact wfSec_secInsert (h.secs (cur, sec) hsm) he
      · intro hpe
        rw [hpe]
        refine ⟨hc, by simp, ?_⟩
        intro kv hkv
        simp only [List.mem_singleton] at hkv
        rw [hkv]
        exact he
  · rw [docInsert_not_mem hm]
    refine ⟨?_, ?_, ?_⟩
    · obtain ⟨ds, rest, hdoc⟩ := h.hd
      exact ⟨ds, rest ++ [(cur, [(k, v)])], by rw [hdoc, List.cons_append]⟩
    · rw [List.map_append]
      refine List.Nodup.append h.snodup (by simp) ?_
      intro a ha hb
      simp only [List.map_cons, List.map_nil, List.mem_singleton] at hb
      exact hm (hb ▸ ha)
    · intro p hp
      refine (List.mem_append.mp hp).elim (h.secs p) (fun hp' => ?_)
      simp only [List.mem_singleton] at hp'
      rw [hp']
      refine ⟨hc, by simp, ?_⟩
      intro kv hkv
      simp only [List.mem_singleton] at hkv
      rw [hkv]
      exact he

theorem wf_newDoc : Wf newDoc := by
  refine ⟨⟨[], [], rfl⟩, List.nodup_singleton _, ?_⟩
  intro p hp
  simp only [newDoc, List.mem_singleton] at hp
  rw [hp]
  exact ⟨wfName_defaultName, List.nodup_nil,
    fun kv hkv => absurd hkv (List.not_mem_nil kv)⟩

theorem buildGo_wf {ls : List Str} {cur : Str} {doc : Doc} {n : Nat}
    {doc' : Doc} (hw : Wf doc) (hc : WfName cur)
    (hnl : ∀ l ∈ ls, '\n' ∉ l) (h : buildGo ls cur doc n = .ok doc') :
    Wf doc' := by
  induction ls generalizing cur doc n with
  | nil =>
    simp only [buildGo] at h
    injection h with h'
    rw [← h']
    exact hw
  | cons l ls ih =>
    have hnl0 : '\n' ∉ l := hnl l (List.mem_cons_self _ _)
    have hnl' : ∀ x ∈ ls, '\n' ∉ x := fun x hx => hnl x (List.mem_cons_of_mem _ hx)
    cases hcl : classify l with
    | blank =>
      simp only [buildGo, hcl] at h
      exact ih hw hc hnl' h
    | comment =>
      simp only [buildGo, hcl] at h
      exact ih hw hc hnl' h
    | malformed =>
      simp only [buildGo, hcl] at h
      exact Except.noConfusion h
    | header nm =>
      simp only [buildGo, hcl] at h
      have hn := classify_header_wf hnl0 hcl
      exact ih (wf_ensureSec hw hn) hn hnl' h
    | entry k v =>
      simp only [buildGo, hcl] at h
      exact ih (wf_docInsert hw hc (classify_entry_wf hnl0 hcl)) hc hnl' h

theorem parse_wf {text : Str} {doc : Doc} (h : parse text = .ok doc) :
    Wf doc :=
  buildGo_wf wf_newDoc wfName_defaultName (splitLines_no_nl text) h

/-! ### Serialization of a well-formed document re-parses to the same
document -/

theorem classify_serEntry {k : Str} {v : Option Str} (he : WfEntry k v) :
    classify (serEntry '=' (k, v)) = .entry k v := by
  have htk : trim k = k := canon_fix_trim he.kcanon
  cases v with
  | none =>
    show classify k = .entry k none
    rw [classify_bare he.keq (by rw [htk]; exact he.kne rfl)
      (by rw [htk]; exact he.khead), he.kcanon]
  | some w =>
    show classify (k ++ '=' :: w) = .entry k (some w)
    rw [classify_entry_delim he.keq (by rw [htk]; exact he.khead) w,
      he.kcanon, (he.vwf w rfl).1]

theorem serEntry_no_nl {k : Str} {v : Option Str} (he : WfEntry k v) :
    '\n' ∉ serEntry '=' (k, v) := by
  cases v with
  | none => exact he.knl
  | some w =>
    show '\n' ∉ k ++ '=' :: w
    intro hm
    rcases List.mem_append.mp hm with h1 | h2
    · exact he.knl h1
    · rcases List.mem_cons.mp h2 with h3 | h4
      · cases h3
      · exact ((he.vwf w rfl).2) h4

theorem serSection_no_nl {nm : Str} {sec : Sec} (hs : WfSec nm sec) :
    ∀ l ∈ serSection '=' (nm, sec), '\n' ∉ l := by
  intro l hl
  rcases List.mem_cons.mp hl with h1 | h2
  · rw [h1]
    intro hm
    rcases List.mem_cons.mp hm with h3 | h4
    · cases h3
    · rcases List.mem_append.mp h4 with h5 | h6
      · exact hs.nwf.2.2 h5
      · exact absurd (List.mem_singleton.mp h6) (by decide)
  · rcases List.mem_map.mp h2 with ⟨kv, hkv, hle⟩
    rw [← hle]
    obtain ⟨k, v⟩ := kv
    exact serEntry_no_nl (hs.entries (k, v) hkv)

theorem buildGo_entries (E : List (Str × Option Str))
    (hwf : ∀ kv ∈ E, WfEntry kv.1 kv.2) (rest : List Str) (cur : Str) :
    ∀ (doc : Doc) (n : Nat),
    buildGo (E.map (serEntry '=') ++ rest) cur doc n
      = buildGo rest cur (docFold cur doc E) (n + E.length) := by
  induction E with
  | nil => intro doc n; simp [docFold]
  | cons kv E' ih =>
    intro doc n
    obtain ⟨k, v⟩ := kv
    have hkv : WfEntry k v := hwf (k, v) (List.mem_cons_self _ _)
    have hwf' : ∀ kv ∈ E', WfEntry kv.1 kv.2 := fun kv h =>
      hwf kv (List.mem_cons_of_mem _ h)
    rw [List.map_cons, List.cons_append]
    simp only [buildGo, classify_serEntry hkv]
    rw [ih hwf' (docInsertKV cur k v doc) (n + 1)]
    have hfold : docFold cur (docInsertKV cur k v doc) E'
        = docFold cur doc ((k, v) :: E') := rfl
    rw [hfold]
    have hn : n + 1 + E'.length = n + ((k, v) :: E').length := by
      simp [List.length_cons]
      omega
    rw [hn]

theorem secFold_app {E : List (Str × Option Str)} :
    ∀ (s0 : Sec), (E.map Prod.fst).Nodup →
    (∀ k ∈ E.map Prod.fst, k ∉ s0.map Prod.fst) →
    secFold s0 E = s0 ++ E := by
  induction E with
  | nil => intro s0 _ _; simp [secFold]
  | cons kv E' ih =>
    intro s0 hnd h
    obtain ⟨k, v⟩ := kv
    have hk0 : k ∉ s0.map Prod.fst :=
      h k (by rw [List.map_cons]; exact List.mem_cons_self _ _)
    have hstep : secFold s0 ((k, v) :: E') = secFold (secInsert k v s0) E' := rfl
    rw [hstep, secInsert_not_mem hk0]
    rw [List.map_cons] at hnd
    have hnd' := List.nodup_cons.mp hnd
    rw [ih (s0 ++ [(k, v)]) hnd'.2 ?_]
    · rw [List.append_assoc, List.singleton_append]
    · intro k' hk' hm
      rw [List.map_append] at hm
      rcases List.mem_append.mp hm with h1 | h2
      · exact h k' (by rw [List.map_cons]; exact List.mem_cons_of_mem _ hk') h1
      · simp only [List.map_cons, List.map_nil, List.mem_singleton] at h2
        exact hnd'.1 (h2 ▸ hk')

theorem docFold_pre {s : Str} {pre : Doc} (hpre : s ∉ pre.map Prod.fst)
    (E : List (Str × Option Str)) :
    ∀ (s0 : Sec) (post : Doc),
    docFold s (pre ++ (s, s0) :: post) E = pre ++ (s, secFold s0 E) :: post := by
  induction E with
  | nil => intro s0 post; simp [docFold, secFold]
  | cons kv E' ih =>
    intro s0 post
    obtain ⟨k, v⟩ := kv
    have hstep : docFold s (pre ++ (s, s0) :: post) ((k, v) :: E')
        = docFold s (docInsertKV s k v (pre ++ (s, s0) :: post)) E' := rfl
    rw [hstep, docInsert_pre hpre, ih]
    rfl

theorem buildGo_sections (secs : List (Str × Sec)) :
    ∀ (accDoc : Doc) (cur : Str) (n : Nat),
    (∀ p ∈ secs, WfSec p.1 p.2) →
    (∀ p ∈ secs, p.1 ∉ accDoc.map Prod.fst) →
    (secs.map Prod.fst).Nodup →
    buildGo (secs.flatMap (serSection '=')) cur accDoc n
      = .ok (accDoc ++ secs) := by
  induction secs with
  | nil => intro accDoc cur n _ _ _; simp [buildGo]
  | cons p secs' ih =>
    intro accDoc cur n hwf hnames hnd
    obtain ⟨nm, sec⟩ := p
    have hws : WfSec nm sec := hwf (nm, sec) (List.mem_cons_self _ _)
    have hnm0 : nm ∉ accDoc.map Prod.fst :=
      hnames (nm, sec) (List.mem_cons_self _ _)
    rw [List.flatMap_cons]
    have hser : serSection '=' (nm, sec)
        = ('[' :: nm ++ [']']) :: sec.map (serEntry '=') := rfl
    rw [hser, List.cons_append]
    simp only [buildGo, classify_header hws.nwf.2.1, hws.nwf.1]
    rw [ensureSec_not_mem hnm0]
    rw [buildGo_entries sec hws.entries _ nm]
    have hacc : accDoc ++ [(nm, [])] = accDoc ++ (nm, ([] : Sec)) :: [] := rfl
    rw [hacc, docFold_pre hnm0 sec [] []]
    rw [secFold_app [] hws.knodup (fun k _ hm => absurd hm (by simp))]
    rw [List.nil_append]
    rw [List.map_cons] at hnd
    have hnd' := List.nodup_cons.mp hnd
    rw [ih (accDoc ++ [(nm, sec)]) nm _
      (fun p hp => hwf p (List.mem_cons_of_mem _ hp)) ?_ hnd'.2]
    · rw [List.append_assoc, List.singleton_append]
    · intro p hp hm
      rw [List.map_append] at hm
      rcases List.mem_append.mp hm with h1 | h2
      · exact hnames p (List.mem_cons_of_mem _ hp) h1
      · simp only [List.map_cons, List.map_nil, List.mem_singleton] at h2
        have hmem : p.1 ∈ secs'.map Prod.fst := List.mem_map_of_mem Prod.fst hp
        rw [h2] at hmem
        exact hnd'.1 hmem

theorem parse_serialize {doc : Doc} (h : Wf doc) :
    parse (serialize '=' doc) = .ok doc := by
  obtain ⟨ds, rest, hdoc⟩ := h.hd
  have hkeys : (doc.map Prod.fst) = defaultName :: rest.map Prod.fst := by
    rw [hdoc, List.map_cons]
  have hsnd := h.snodup
  rw [hkeys] at hsnd
  have hsnd' := List.nodup_cons.mp hsnd
  have hne : ∀ p ∈ rest, p.1 ≠ defaultName := fun p hp he =>
    hsnd'.1 (he ▸ List.mem_map_of_mem Prod.fst hp)
  have hwfds : WfSec defaultName ds := by
    have := h.secs (defaultName, ds) (by rw [hdoc]; exact List.mem_cons_self _ _)
    exact this
  have hwfrest : ∀ p ∈ rest, WfSec p.1 p.2 := fun p hp =>
    h.secs p (by rw [hdoc]; exact List.mem_cons_of_mem _ hp)
  have hserL : serLines '=' doc
      = ds.map (serEntry '=') ++ rest.flatMap (serSection '=') := by
    unfold serLines
    rw [hdoc]
    rw [docGet_cons_pos rfl]
    have hfil : List.filter (fun p => decide (p.1 ≠ defaultName))
        ((defaultName, ds) :: rest) = rest := by
      rw [List.filter_cons_of_neg (by simp)]
      exact List.filter_eq_self.mpr fun p hp => decide_eq_true (hne p hp)
    rw [hfil]
  have hnonl : ∀ l ∈ serLines '=' doc, '\n' ∉ l := by
    rw [hserL]
    intro l hl
    rcases List.mem_append.mp hl with h1 | h2
    · rcases List.mem_map.mp h1 with ⟨kv, hkv, hle⟩
      rw [← hle]
      obtain ⟨k, v⟩ := kv
      exact serEntry_no_nl (hwfds.entries (k, v) hkv)
    · rcases List.mem_flatMap.mp h2 with ⟨p, hp, hlp⟩
      obtain ⟨nm, sec⟩ := p
      exact serSection_no_nl (hwfrest (nm, sec) hp) l hlp
  by_cases hnil : serLines '=' doc = []
  · have hds : ds.map (serEntry '=') = [] := by
      rw [hserL] at hnil
      exact List.append_eq_nil.mp hnil |>.1
    have hrestL : rest.flatMap (serSection '=') = [] := by
      rw [hserL] at hnil
      exact List.append_eq_nil.mp hnil |>.2
    have hds' : ds = [] := List.map_eq_nil_iff.mp hds
    have hrest' : rest = [] := by
      cases hr : rest with
      | nil => rfl
      | cons p rest2 =>
        rw [hr, List.flatMap_cons] at hrestL
        obtain ⟨nm, sec⟩ := p
        rw [show serSection '=' (nm, sec)
          = ('[' :: nm ++ [']']) :: sec.map (serEntry '=') from rfl,
          List.cons_append] at hrestL
        cases hrestL
    rw [hdoc, hds', hrest']
    rfl
  · show buildGo (splitLines (joinLines (serLines '=' doc)))
      defaultName newDoc 1 = .ok doc
    rw [splitLines_joinLines hnil hnonl, hserL]
    rw [buildGo_entries ds hwfds.entries _ defaultName newDoc 1]
    have hnew : docFold defaultName newDoc ds = [(defaultName, ds)] := by
      have h0 : newDoc = [] ++ (defaultName, ([] : Sec)) :: [] := rfl
      rw [h0, docFold_pre (by simp) ds [] []]
      rw [secFold_app [] hwfds.knodup (fun k _ hm => absurd hm (by simp))]
      rfl
    rw [hnew]
    rw [buildGo_sections rest [(defaultName, ds)] defaultName _
      hwfrest ?_ hsnd'.2]
    · rw [hdoc, List.singleton_append]
    · intro p hp hm
      simp only [List.map_cons, List.map_nil, List.mem_singleton] at hm
      exact hne p hp hm

/-! ### Claim theorems -/

/-- Claim C1: for every input text that parses to a Document, serializing
that Document and parsing the output yields a Document equal to the one
obtained by parsing the original text directly (serialize then parse is
the identity on parsed Documents). -/
theorem claim1_roundtrip (text : Str) (doc : Doc)
    (h : parse text = .ok doc) : parse (serialize '=' doc) = .ok doc :=
  parse_serialize (parse_wf h)

/-- Witness for C1 at a concrete input text. -/
theorem claim1_roundtrip_witness :
    parseIni "[A]\nx = 1\nbare\ny =" = .ok [(strL "default", []),
      (strL "a", [(strL "x", some (strL "1")), (strL "bare", none),
        (strL "y", some [])])]
  ∧ parse (serialize '=' [(strL "default", []),
      (strL "a", [(strL "x", some (strL "1")), (strL "bare", none),
        (strL "y", some [])])])
    = .ok [(strL "default", []),
      (strL "a", [(strL "x", some (strL "1")), (strL "bare", none),
        (strL "y", some [])])] :=
  ⟨rfl, claim1_roundtrip (strL "[A]\nx = 1\nbare\ny =") _ rfl⟩

/-- Claim C2: lookup is fully case-insensitive in both the section and the
key argument: `get` applied to any case variants of the section and key
names (any strings with the same lowercasing) returns the same result. -/
theorem claim2_get_case_insensitive (doc : Doc) (S K S2 K2 : String)
    (hS : lower S2.data = lower S.data) (hK : lower K2.data = lower K.data) :
    get doc S2 K2 = get doc S K := by
  have hcanon : ∀ a b : Str, lower a = lower b → canon a = canon b := by
    intro a b hab
    unfold canon
    rw [← lower_trim_comm, ← lower_trim_comm, hab]
  show getRaw doc S2.data K2.data = getRaw doc S.data K.data
  unfold getRaw
  rw [hcanon _ _ hS, hcanon _ _ hK]

/-- Witness for C2: uppercase lookup agrees with lowercase lookup on a
concrete document. -/
theorem claim2_get_case_insensitive_witness :
    lower (strL "TOPSECRETS") = lower (strL "topsecrets")
  ∧ lower (strL "NUCLEAR LAUNCH CODES") = lower (strL "nuclear launch codes")
  ∧ get [(strL "topsecrets",
        [(strL "nuclear launch codes", some (strL "topsecret"))])]
      "TOPSECRETS" "NUCLEAR LAUNCH CODES"
    = get [(strL "topsecrets",
        [(strL "nuclear launch codes", some (strL "topsecret"))])]
      "topsecrets" "nuclear launch codes" :=
  ⟨rfl, rfl,
    claim2_get_case_insensitive _ "topsecrets" "nuclear launch codes"
      "TOPSECRETS" "NUCLEAR LAUNCH CODES" rfl rfl⟩

/-- Claim C3: parsing a text with two entries whose keys canonicalize to
the same string within the same section yields exactly one entry for that
canonical key, holding the later entry's value (last write wins): the
section's content is the single-entry list with the later value. -/
theorem claim3_last_write_wins (S k1 k2 v1 v2 : Str)
    (hS1 : ']' ∉ S) (hS2 : '\n' ∉ S)
    (hk1 : entryKeyOk k1) (hk2 : entryKeyOk k2)
    (hv1 : '\n' ∉ v1) (hv2 : '\n' ∉ v2)
    (hc : canon k1 = canon k2) :
    ∃ doc,
      parse (('[' :: S ++ [']'])
          ++ '\n' :: ((k1 ++ '=' :: v1) ++ '\n' :: (k2 ++ '=' :: v2)))
        = .ok doc
      ∧ docGet (canon S) doc = some [(canon k2, some (trim v2))] := by
  obtain ⟨hk1e, hk1n, hk1h⟩ := hk1
  obtain ⟨hk2e, hk2n, hk2h⟩ := hk2
  have hl1 : '\n' ∉ '[' :: S ++ [']'] := by
    intro hm
    rcases List.mem_cons.mp hm with h | h
    · cases h
    · rcases List.mem_append.mp h with h' | h'
      · exact hS2 h'
      · exact absurd (List.mem_singleton.mp h') (by decide)
  have hl2 : '\n' ∉ k1 ++ '=' :: v1 := by
    intro hm
    rcases List.mem_append.mp hm with h | h
    · exact hk1n h
    · rcases List.mem_cons.mp h with h' | h'
      · cases h'
      · exact hv1 h'
  have hl3 : '\n' ∉ k2 ++ '=' :: v2 := by
    intro hm
    rcases List.mem_append.mp hm with h | h
    · exact hk2n h
    · rcases List.mem_cons.mp h with h' | h'
      · cases h'
      · exact hv2 h'
  have hsplit : splitLines (('[' :: S ++ [']'])
      ++ '\n' :: ((k1 ++ '=' :: v1) ++ '\n' :: (k2 ++ '=' :: v2)))
      = ('[' :: S ++ [']']) :: (k1 ++ '=' :: v1) :: [k2 ++ '=' :: v2] := by
    rw [splitLines_app hl1, splitLines_app hl2, splitLines_single hl3]
  unfold parse
  rw [hsplit]
  simp only [buildGo, classify_header hS1,
    classify_entry_delim hk1e hk1h, classify_entry_delim hk2e hk2h, newDoc]
  by_cases hd : defaultName = canon S
  · rw [ensureSec_cons_pos hd]
    rw [docInsertKV_cons_pos hd]
    rw [show secInsert (canon k1) (some (trim v1)) ([] : Sec)
      = [(canon k1, some (trim v1))] from rfl]
    rw [docInsertKV_cons_pos hd]
    rw [secInsert_cons_pos hc]
    refine ⟨_, rfl, ?_⟩
    rw [docGet_cons_pos hd, hc]
  · rw [ensureSec_cons_neg hd]
    rw [show ensureSec (canon S) ([] : Doc) = [(canon S, [])] from rfl]
    rw [docInsertKV_cons_neg hd]
    rw [docInsertKV_cons_pos rfl]
    rw [show secInsert (canon k1) (some (trim v1)) ([] : Sec)
      = [(canon k1, some (trim v1))] from rfl]
    rw [docInsertKV_cons_neg hd]
    rw [docInsertKV_cons_pos rfl]
    rw [secInsert_cons_pos hc]
    refine ⟨_, rfl, ?_⟩
    rw [docGet_cons_neg hd, docGet_cons_pos rfl, hc]

/-- Witness for C3: two case-variant duplicate keys in one section keep
only the later value. -/
theorem claim3_last_write_wins_witness :
    (']' ∉ strL "Sec") ∧ ('\n' ∉ strL "Sec")
  ∧ entryKeyOk (strL "Flag") ∧ entryKeyOk (strL "FLAG")
  ∧ ('\n' ∉ strL "a") ∧ ('\n' ∉ strL "b")
  ∧ canon (strL "Flag") = canon (strL "FLAG")
  ∧ (∃ doc,
      parse (('[' :: strL "Sec" ++ [']'])
          ++ '\n' :: ((strL "Flag" ++ '=' :: strL "a")
            ++ '\n' :: (strL "FLAG" ++ '=' :: strL "b")))
        = .ok doc
      ∧ docGet (canon (strL "Sec")) doc
        = some [(canon (strL "FLAG"), some (trim (strL "b")))]) :=
  ⟨by decide, by decide, by decide, by decide, by decide, by decide, rfl,
    claim3_last_write_wins (strL "Sec") (strL "Flag") (strL "FLAG")
      (strL "a") (strL "b") (by decide) (by decide) (by decide) (by decide)
      (by decide) (by decide) rfl⟩

/-- Claim C4: parsing a bare key yields a key with an Absent value slot,
parsing the same key followed by the delimiter and nothing else yields a
Present empty-string slot, and the two outcomes remain observably distinct
through `get`, `getint` and `getbool`. -/
theorem claim4_valueless_distinct :
    parseIni "foo" = .ok [(defaultName, [(strL "foo", none)])]
  ∧ parseIni "foo =" = .ok [(defaultName, [(strL "foo", some [])])]
  ∧ get [(defaultName, [(strL "foo", none)])] "default" "foo" = some none
  ∧ get [(defaultName, [(strL "foo", some [])])] "default" "foo"
      = some (some [])
  ∧ some (none : Option Str) ≠ some (some ([] : Str))
  ∧ getint [(defaultName, [(strL "foo", none)])] "default" "foo" = .ok none
  ∧ getint [(defaultName, [(strL "foo", some [])])] "default" "foo"
      = .error []
  ∧ getbool [(defaultName, [(strL "foo", none)])] "default" "foo" = .ok none
  ∧ getbool [(defaultName, [(strL "foo", some [])])] "default" "foo"
      = .error [] :=
  ⟨rfl, rfl, rfl, rfl, by decide, rfl, rfl, rfl, rfl⟩

/-- Claim C6: for every stored present string value, `getbool` returns
true exactly when the value matches the true literals case-insensitively,
false exactly when it matches the false literals case-insensitively, and
fails with a ParseError carrying the value for every other string. -/
theorem claim6_getbool_cases (doc : Doc) (S K : String) (v : Str)
    (h : getRaw doc S.data K.data = some (some v)) :
    (getbool doc S K = .ok (some true) ↔
      lower v ∈ [strL "true", strL "yes", strL "on", strL "1"])
  ∧ (getbool doc S K = .ok (some false) ↔
      lower v ∈ [strL "false", strL "no", strL "off", strL "0"])
  ∧ (getbool doc S K = .error v ↔
      (lower v ∉ [strL "true", strL "yes", strL "on", strL "1"] ∧
       lower v ∉ [strL "false", strL "no", strL "off", strL "0"])) := by
  have hdisj : ∀ x : Str, x ∈ [strL "true", strL "yes", strL "on", strL "1"]
      → x ∉ [strL "false", strL "no", strL "off", strL "0"] := by
    intro x hx
    fin_cases hx <;> decide
  have hgb : getbool doc S K =
      (if lower v ∈ [strL "true", strL "yes", strL "on", strL "1"] then
        Except.ok (some true)
      else if lower v ∈ [strL "false", strL "no", strL "off", strL "0"] then
        Except.ok (some false)
      else Except.error v) := by
    simp only [getbool, h]
  rw [hgb]
  by_cases h1 : lower v ∈ [strL "true", strL "yes", strL "on", strL "1"]
  · rw [if_pos h1]
    exact ⟨⟨fun _ => h1, fun _ => rfl⟩,
      ⟨fun he => Bool.noConfusion (Option.some.inj (Except.ok.inj he)),
       fun h2 => absurd h2 (hdisj _ h1)⟩,
      ⟨fun he => Except.noConfusion he, fun hh => absurd h1 hh.1⟩⟩
  · rw [if_neg h1]
    by_cases h2 : lower v ∈ [strL "false", strL "no", strL "off", strL "0"]
    · rw [if_pos h2]
      exact ⟨⟨fun he => Bool.noConfusion (Option.some.inj (Except.ok.inj he)),
          fun hh => absurd hh h1⟩,
        ⟨fun _ => h2, fun _ => rfl⟩,
        ⟨fun he => Except.noConfusion he, fun hh => absurd h2 hh.2⟩⟩
    · rw [if_neg h2]
      exact ⟨⟨fun he => Except.noConfusion he, fun hh => absurd hh h1⟩,
        ⟨fun he => Except.noConfusion he, fun hh => absurd hh h2⟩,
        ⟨fun _ => ⟨h1, h2⟩, fun _ => rfl⟩⟩

/-- Witness for C6 on the mixed-case value Yes. -/
theorem claim6_getbool_cases_witness :
    getRaw [(strL "default", [(strL "pizzatime", some (strL "Yes"))])]
      (strL "default") (strL "pizzatime") = some (some (strL "Yes"))
  ∧ ((getbool [(strL "default", [(strL "pizzatime", some (strL "Yes"))])]
        "default" "pizzatime" = .ok (some true) ↔
      lower (strL "Yes") ∈ [strL "true", strL "yes", strL "on", strL "1"])
  ∧ (getbool [(strL "default", [(strL "pizzatime", some (strL "Yes"))])]
        "default" "pizzatime" = .ok (some false) ↔
      lower (strL "Yes") ∈ [strL "false", strL "no", strL "off", strL "0"])
  ∧ (getbool [(strL "default", [(strL "pizzatime", some (strL "Yes"))])]
        "default" "pizzatime" = .error (strL "Yes") ↔
      (lower (strL "Yes") ∉ [strL "true", strL "yes", strL "on", strL "1"] ∧
       lower (strL "Yes") ∉
         [strL "false", strL "no", strL "off", strL "0"]))) :=
  ⟨rfl, claim6_getbool_cases _ "default" "pizzatime" (strL "Yes") rfl⟩

/-- Failing at the first malformed header: the builder aborts with the
1-based line number. -/
theorem buildGo_error (pre : List Str) :
    ∀ (bad : Str) (post : List Str) (cur : Str) (doc : Doc) (n : Nat),
    (∀ l ∈ pre, classify l ≠ .malformed) → classify bad = .malformed →
    buildGo (pre ++ bad :: post) cur doc n = .error (n + pre.length) := by
  induction pre with
  | nil =>
    intro bad post cur doc n _ hbad
    simp only [List.nil_append, buildGo, hbad, List.length_nil, Nat.add_zero]
  | cons l pre' ih =>
    intro bad post cur doc n hpre hbad
    have hl : classify l ≠ .malformed := hpre l (List.mem_cons_self _ _)
    have hpre' : ∀ x ∈ pre', classify x ≠ .malformed := fun x hx =>
      hpre x (List.mem_cons_of_mem _ hx)
    rw [List.cons_append]
    cases hcl : classify l with
    | blank =>
      simp only [buildGo, hcl]
      rw [ih bad post cur doc (n + 1) hpre' hbad]
      simp only [List.length_cons]
      congr 1
      omega
    | comment =>
      simp only [buildGo, hcl]
      rw [ih bad post cur doc (n + 1) hpre' hbad]
      simp only [List.length_cons]
      congr 1
      omega
    | malformed => exact absurd hcl hl
    | header nm =>
      simp only [buildGo, hcl]
      rw [ih bad post nm (ensureSec nm doc) (n + 1) hpre' hbad]
      simp only [List.length_cons]
      congr 1
      omega
    | entry k v =>
      simp only [buildGo, hcl]
      rw [ih bad post cur (docInsertKV cur k v doc) (n + 1) hpre' hbad]
      simp only [List.length_cons]
      congr 1
      omega

/-- Claim C7: a text whose first malformed line is a header with a missing
closing bracket fails to parse with a SyntaxError naming that line's
1-based number, with no partial Document returned; malformed lines are
exactly the lines whose trimmed form starts with an opening bracket and
has no closing bracket, and every other non-blank, non-comment, non-header
line without a delimiter is a valid entry with an absent value. -/
theorem claim7_header_error_aborts (text : Str) (pre post : List Str)
    (bad : Str) (hsplit : splitLines text = pre ++ bad :: post)
    (hpre : ∀ l ∈ pre, classify l ≠ .malformed)
    (hbad : classify bad = .malformed) :
    parse text = .error (1 + pre.length)
  ∧ (∀ l, classify l = .malformed → ∃ r, trim l = '[' :: r ∧ ']' ∉ r)
  ∧ (∀ l c rest, trim l = c :: rest → c ≠ '[' → c ≠ ';' → c ≠ '#' →
      '=' ∉ (c :: rest : Str) → classify l = .entry (canon l) none) := by
  refine ⟨?_, fun l => classify_malformed_shape, ?_⟩
  · unfold parse
    rw [hsplit]
    exact buildGo_error pre bad post defaultName newDoc 1 hpre hbad
  · intro l c rest htl h1 h2 h3 h4
    have hcan : canon (c :: rest) = canon l := by rw [← htl, canon_trim]
    simp only [classify, htl,
      if_neg (show ¬(c = ';' ∨ c = '#') from fun hor => hor.elim h2 h3),
      if_neg h1, sof_not_mem h4, hcan]

/-- Witness for C7 on a three-line text whose second line is a malformed
header. -/
theorem claim7_header_error_aborts_witness :
    splitLines (strL "a=1\n[bad\nx=2")
      = [strL "a=1"] ++ strL "[bad" :: [strL "x=2"]
  ∧ (∀ l ∈ [strL "a=1"], classify l ≠ LineKind.malformed)
  ∧ classify (strL "[bad") = LineKind.malformed
  ∧ parse (strL "a=1\n[bad\nx=2") = .error 2 :=
  ⟨rfl, by decide, rfl,
    (claim7_header_error_aborts (strL "a=1\n[bad\nx=2") [strL "a=1"]
      [strL "x=2"] (strL "[bad") rfl (by decide) rfl).1⟩

/-- Claim C8: when a stored present value cannot be coerced by `getint`,
the accessor returns a ParseError value carrying the offending string (the
accessor is a total function of the document and cannot panic or modify
it). -/
theorem claim8_getint_parse_error (doc : Doc) (S K : String) (v : Str)
    (hv : getRaw doc S.data K.data = some (some v))
    (hp : parseI64 v = none) : getint doc S K = .error v := by
  simp only [getint, hv, hp]

/-- Witness for C8 on the value not-a-number. -/
theorem claim8_getint_parse_error_witness :
    getRaw [(strL "default", [(strL "x", some (strL "not-a-number"))])]
      (strL "default") (strL "x") = some (some (strL "not-a-number"))
  ∧ parseI64 (strL "not-a-number") = none
  ∧ getint [(strL "default", [(strL "x", some (strL "not-a-number"))])]
      "default" "x" = .error (strL "not-a-number") :=
  ⟨rfl, rfl,
    claim8_getint_parse_error _ "default" "x" (strL "not-a-number") rfl rfl⟩

/-- Help for C9: a non-digit character anywhere makes the digit scanner
fail. -/
theorem digitsValGo_none {s : Str} {c : Char} (hc : c ∈ s)
    (hcd : c.isDigit = false) : ∀ acc, digitsValGo acc s = none := by
  induction s with
  | nil => cases hc
  | cons x rest ih =>
    intro acc
    by_cases hx : x.isDigit = true
    · have hcr : c ∈ rest := by
        rcases List.mem_cons.mp hc with he | hm
        · rw [he] at hcd; rw [hcd] at hx; cases hx
        · exact hm
      simp only [digitsValGo, if_pos hx]
      exact ih hcr _
    · simp only [digitsValGo, if_neg hx]

theorem digitsVal_none {s : Str} {c : Char} (hc : c ∈ s)
    (hcd : c.isDigit = false) : digitsVal s = none := by
  cases s with
  | nil => rfl
  | cons x rest => exact digitsValGo_none hc hcd 0

theorem digitsValGo_some {s : Str} (hd : ∀ c ∈ s, c.isDigit = true) :
    ∀ acc, ∃ m, digitsValGo acc s = some m := by
  induction s with
  | nil => exact fun acc => ⟨acc, rfl⟩
  | cons x rest ih =>
    intro acc
    have hx : x.isDigit = true := hd x (List.mem_cons_self _ _)
    simp only [digitsValGo, if_pos hx]
    exact ih (fun c hc => hd c (List.mem_cons_of_mem _ hc)) _

theorem digitsVal_some {s : Str} (hne : s ≠ [])
    (hd : ∀ c ∈ s, c.isDigit = true) : ∃ m, digitsVal s = some m := by
  cases s with
  | nil => exact absurd rfl hne
  | cons x rest => exact digitsValGo_some hd 0

/-- Help for C9: a non-digit, non-sign character anywhere makes signed
64-bit parsing fail. -/
theorem parseI64_none_of_bad {s : Str} {d : Char} (hd : d ∈ s)
    (hnd : d.isDigit = false) (h1 : d ≠ '+') (h2 : d ≠ '-') :
    parseI64 s = none := by
  cases s with
  | nil => rfl
  | cons x rest =>
    simp only [parseI64]
    by_cases hx1 : x = '+'
    · have hdr : d ∈ rest := by
        rcases List.mem_cons.mp hd with he | hm
        · exact absurd (he.trans hx1) h1
        · exact hm
      rw [if_pos hx1, digitsVal_none hdr hnd]
      rfl
    · rw [if_neg hx1]
      by_cases hx2 : x = '-'
      · have hdr : d ∈ rest := by
          rcases List.mem_cons.mp hd with he | hm
          · exact absurd (he.trans hx2) h2
          · exact hm
        rw [if_pos hx2, digitsVal_none hdr hnd]
        rfl
      · rw [if_neg hx2, digitsVal_none hd hnd]
        rfl

/-- Help for C9: the unsigned analogue. -/
theorem parseU64_none_of_bad {s : Str} {d : Char} (hd : d ∈ s)
    (hnd : d.isDigit = false) (h1 : d ≠ '+') : parseU64 s = none := by
  cases s with
  | nil => rfl
  | cons x rest =>
    simp only [parseU64]
    by_cases hx1 : x = '+'
    · have hdr : d ∈ rest := by
        rcases List.mem_cons.mp hd with he | hm
        · exact absurd (he.trans hx1) h1
        · exact hm
      rw [if_pos hx1, digitsVal_none hdr hnd]
      rfl
    · rw [if_neg hx1, digitsVal_none hd hnd]
      rfl

theorem takeWhile_all {p : α → Bool} {b : List α}
    (h : ∀ x ∈ b, p x = true) : b.takeWhile p = b := by
  induction b with
  | nil => rfl
  | cons x rest ih =>
    rw [List.takeWhile_cons, if_pos (h x (List.mem_cons_self _ _))]
    rw [ih (fun y hy => h y (List.mem_cons_of_mem _ hy))]

theorem takeWhile_append_pivot {p : α → Bool} {a : List α} {c : α}
    (ha : ∀ x ∈ a, p x = true) (hc : p c = false) (b : List α) :
    (a ++ c :: b).takeWhile p = a := by
  induction a with
  | nil =>
    rw [List.nil_append, List.takeWhile_cons, if_neg (by rw [hc]; decide)]
  | cons x rest ih =>
    rw [List.cons_append, List.takeWhile_cons,
      if_pos (ha x (List.mem_cons_self _ _)),
      ih (fun y hy => ha y (List.mem_cons_of_mem _ hy))]

theorem floatSign_digit_head {c0 : Char} (hc0 : c0.isDigit = true)
    (t : Str) : floatSign (c0 :: t) = (1, c0 :: t) := by
  have hno : ∀ d : Char, d.isDigit = false → c0 ≠ d := by
    intro d hdf he
    rw [he] at hc0
    rw [hc0] at hdf
    cases hdf
  unfold floatSign
  rw [if_neg (fun heq => hno '-' (by decide)
      (Option.some.inj (List.head?_cons ▸ heq))),
    if_neg (fun heq => hno '+' (by decide)
      (Option.some.inj (List.head?_cons ▸ heq)))]

theorem floatAfterInt_e (m sgn : ℚ) (r : Str) :
    floatAfterInt m sgn ('e' :: r) = floatExp m ('e' :: r) := rfl

/-- Claim C9: getint, getuint and getfloat parse the stored string under
base-10 numeric literal rules — getint and getuint reject fractional and
exponent forms (any dot or exponent letter), getfloat accepts digit
strings with a fractional part or an exponent, and getint accepts plain
in-range digit strings — and all three return Ok None, not an error, when
the key does not exist or its value slot is Absent. -/
theorem claim9_numeric_accessors (doc : Doc) (S K : String) :
    ((getRaw doc S.data K.data = none ∨ getRaw doc S.data K.data = some none)
      → getint doc S K = .ok none ∧ getuint doc S K = .ok none ∧
        getfloat doc S K = .ok none)
  ∧ (∀ s : Str, ('.' ∈ s ∨ 'e' ∈ s ∨ 'E' ∈ s) →
      parseI64 s = none ∧ parseU64 s = none)
  ∧ (∀ a b : Str, a ≠ [] → (∀ c ∈ a, c.isDigit = true) → b ≠ [] →
      (∀ c ∈ b, c.isDigit = true) →
      ∃ q, parseFloat (a ++ '.' :: b) = some q)
  ∧ (∀ a ex : Str, a ≠ [] → (∀ c ∈ a, c.isDigit = true) → ex ≠ [] →
      (∀ c ∈ ex, c.isDigit = true) →
      ∃ q, parseFloat (a ++ 'e' :: ex) = some q)
  ∧ (∀ a : Str, (∀ c ∈ a, c.isDigit = true) → ∀ m, digitsVal a = some m →
      m ≤ 2 ^ 63 - 1 → parseI64 a = some (Int.ofNat m)) := by
  refine ⟨?_, ?_, ?_, ?_, ?_⟩
  · intro h
    rcases h with h | h
    · exact ⟨by simp only [getint, h], by simp only [getuint, h],
        by simp only [getfloat, h]⟩
    · exact ⟨by simp only [getint, h], by simp only [getuint, h],
        by simp only [getfloat, h]⟩
  · intro s hs
    rcases hs with h | h | h
    · exact ⟨parseI64_none_of_bad h (by decide) (by decide) (by decide),
        parseU64_none_of_bad h (by decide) (by decide)⟩
    · exact ⟨parseI64_none_of_bad h (by decide) (by decide) (by decide),
        parseU64_none_of_bad h (by decide) (by decide)⟩
    · exact ⟨parseI64_none_of_bad h (by decide) (by decide) (by decide),
        parseU64_none_of_bad h (by decide) (by decide)⟩
  · intro a b hane had hbne hbd
    cases a with
    | nil => exact absurd rfl hane
    | cons c0 a0 =>
      have hsign : floatSign ((c0 :: a0) ++ '.' :: b) = (1, (c0 :: a0) ++ '.' :: b) := by
        rw [List.cons_append]
        rw [floatSign_digit_head (had c0 (List.mem_cons_self _ _))]
      have hip : ((c0 :: a0) ++ '.' :: b).takeWhile Char.isDigit = c0 :: a0 :=
        takeWhile_append_pivot had (by decide) b
      have hdp : ((c0 :: a0) ++ '.' :: b).dropWhile Char.isDigit = '.' :: b := by
        rw [dropWhile_append_pivot (by decide),
          List.dropWhile_eq_nil_iff.mpr had, List.nil_append]
      simp only [parseFloat, hsign, hip, hdp,
        if_neg (show ¬(c0 :: a0) = [] from List.cons_ne_nil c0 a0),
        floatAfterInt, takeWhile_all hbd, List.dropWhile_eq_nil_iff.mpr hbd,
        floatExp]
      exact ⟨_, rfl⟩
  · intro a ex hane had hexne hexd
    cases a with
    | nil => exact absurd rfl hane
    | cons c0 a0 =>
      have hsign : floatSign ((c0 :: a0) ++ 'e' :: ex)
          = (1, (c0 :: a0) ++ 'e' :: ex) := by
        rw [List.cons_append]
        rw [floatSign_digit_head (had c0 (List.mem_cons_self _ _))]
      have hip : ((c0 :: a0) ++ 'e' :: ex).takeWhile Char.isDigit = c0 :: a0 :=
        takeWhile_append_pivot had (by decide) ex
      have hdp : ((c0 :: a0) ++ 'e' :: ex).dropWhile Char.isDigit
          = 'e' :: ex := by
        rw [dropWhile_append_pivot (by decide),
          List.dropWhile_eq_nil_iff.mpr had, List.nil_append]
      obtain ⟨m, hm⟩ := digitsVal_some hexne hexd
      cases ex with
      | nil => exact absurd rfl hexne
      | cons e0 ex0 =>
        have he0 : e0.isDigit = true := hexd e0 (List.mem_cons_self _ _)
        have hno : ∀ d : Char, d.isDigit = false → e0 ≠ d := by
          intro d hdf he
          rw [he] at he0
          rw [he0] at hdf
          cases hdf
        simp only [parseFloat, hsign, hip, hdp,
          if_neg (show ¬(c0 :: a0) = [] from List.cons_ne_nil c0 a0),
          floatAfterInt_e, floatExp, expPart, List.head?_cons,
          if_neg (fun heq => hno '-' (by decide) (Option.some.inj heq)),
          if_neg (fun heq => hno '+' (by decide) (Option.some.inj heq)),
          hm, Option.map_some]
        exact ⟨_, rfl⟩
  · intro a had m hm hle
    cases a with
    | nil => cases hm
    | cons c0 a0 =>
      have hc0 : c0.isDigit = true := had c0 (List.mem_cons_self _ _)
      have hno : ∀ d : Char, d.isDigit = false → c0 ≠ d := by
        intro d hdf he
        rw [he] at hc0
        rw [hc0] at hdf
        cases hdf
      simp only [parseI64, if_neg (hno '+' (by decide)),
        if_neg (hno '-' (by decide)), hm, Option.some_bind, if_pos hle]

/-- Witness for C9 combining the missing-key, rejection, and acceptance
parts at concrete inputs. -/
theorem claim9_numeric_accessors_witness :
    getRaw [(strL "default", [])] (strL "default") (strL "missing") = none
  ∧ getint [(strL "default", [])] "default" "missing" = .ok none
  ∧ parseI64 (strL "1.5") = none
  ∧ parseU64 (strL "2e3") = none
  ∧ (∃ q, parseFloat (strL "1" ++ '.' :: strL "5") = some q)
  ∧ (∃ q, parseFloat (strL "2" ++ 'e' :: strL "3") = some q)
  ∧ parseI64 (strL "9") = some (Int.ofNat 9) := by
  have h := claim9_numeric_accessors [(strL "default", [])] "default" "missing"
  refine ⟨rfl, (h.1 (Or.inl rfl)).1,
    (h.2.1 (strL "1.5") (Or.inl (by decide))).1,
    (h.2.1 (strL "2e3") (Or.inr (Or.inl (by decide)))).2,
    h.2.2.1 (strL "1") (strL "5") (by decide) (by decide) (by decide)
      (by decide),
    h.2.2.2.1 (strL "2") (strL "3") (by decide) (by decide) (by decide)
      (by decide),
    h.2.2.2.2 (strL "9") (by decide) 9 rfl (by norm_num)⟩

/-- Help for C5: a section lookup survives appending sections. -/
theorem docGet_append_left {x : Str} {doc : Doc} {sec : Sec}
    (h : docGet x doc = some sec) (post : Doc) :
    docGet x (doc ++ post) = some sec := by
  induction doc with
  | nil => cases h
  | cons p rest ih =>
    obtain ⟨s0, sec0⟩ := p
    by_cases hs : s0 = x
    · rw [docGet_cons_pos hs] at h
      rw [List.cons_append, docGet_cons_pos hs]
      exact h
    · rw [docGet_cons_neg hs] at h
      rw [List.cons_append, docGet_cons_neg hs]
      exact ih h

/-- Help for C5: a present key stays present through a key insertion. -/
theorem presence_docInsert {x y s k : Str} {v : Option Str} {doc : Doc}
    (h : ((docGet x doc).bind (secGet y)).isSome = true) :
    ((docGet x (docInsertKV s k v doc)).bind (secGet y)).isSome = true := by
  induction doc with
  | nil => simp [docGet] at h
  | cons p rest ih =>
    obtain ⟨s0, sec0⟩ := p
    by_cases hs : s0 = s
    · rw [docInsertKV_cons_pos hs]
      by_cases hx : s0 = x
      · rw [docGet_cons_pos hx] at h
        rw [docGet_cons_pos hx]
        simp only [Option.some_bind] at h ⊢
        by_cases hy : y = k
        · rw [hy, secGet_insert_self]
          rfl
        · rw [secGet_insert_other hy]
          exact h
      · rw [docGet_cons_neg hx] at h
        rw [docGet_cons_neg hx]
        exact h
    · rw [docInsertKV_cons_neg hs]
      by_cases hx : s0 = x
      · rw [docGet_cons_pos hx] at h
        rw [docGet_cons_pos hx]
        exact h
      · rw [docGet_cons_neg hx] at h
        rw [docGet_cons_neg hx]
        exact ih h

/-- Help for C5: a present key stays present through section creation. -/
theorem presence_ensureSec {x y s : Str} {doc : Doc}
    (h : ((docGet x doc).bind (secGet y)).isSome = true) :
    ((docGet x (ensureSec s doc)).bind (secGet y)).isSome = true := by
  by_cases hm : s ∈ doc.map Prod.fst
  · rw [ensureSec_of_mem hm]
    exact h
  · rw [ensureSec_not_mem hm]
    cases hdg : docGet x doc with
    | none => rw [hdg] at h; cases h
    | some sec =>
      rw [hdg] at h
      rw [docGet_append_left hdg]
      exact h

/-- Help for C5: a present key stays present through building any further
lines. -/
theorem buildGo_presence {x y : Str} :
    ∀ (ls : List Str) (cur : Str) (doc : Doc) (n : Nat) (doc' : Doc),
    buildGo ls cur doc n = .ok doc' →
    ((docGet x doc).bind (secGet y)).isSome = true →
    ((docGet x doc').bind (secGet y)).isSome = true := by
  intro ls
  induction ls with
  | nil =>
    intro cur doc n doc' hb h
    simp only [buildGo] at hb
    injection hb with hb'
    rw [← hb']
    exact h
  | cons l ls' ih =>
    intro cur doc n doc' hb h
    cases hcl : classify l with
    | blank =>
      simp only [buildGo, hcl] at hb
      exact ih cur doc (n + 1) doc' hb h
    | comment =>
      simp only [buildGo, hcl] at hb
      exact ih cur doc (n + 1) doc' hb h
    | malformed =>
      simp only [buildGo, hcl] at hb
      exact Except.noConfusion hb
    | header nm =>
      simp only [buildGo, hcl] at hb
      exact ih nm (ensureSec nm doc) (n + 1) doc' hb (presence_ensureSec h)
    | entry k v =>
      simp only [buildGo, hcl] at hb
      exact ih cur (docInsertKV cur k v doc) (n + 1) doc' hb
        (presence_docInsert h)

/-- Help for C5: inserting a key makes it present in its section. -/
theorem docGet_docInsert_self (s k : Str) (v : Option Str) :
    ∀ doc : Doc, ∃ sec0, docGet s (docInsertKV s k v doc)
      = some (secInsert k v sec0) := by
  intro doc
  induction doc with
  | nil =>
    refine ⟨[], ?_⟩
    show docGet s ((s, [(k, v)]) :: []) = some (secInsert k v [])
    rw [docGet_cons_pos rfl]
    rfl
  | cons p rest ih =>
    obtain ⟨s0, sec0⟩ := p
    by_cases hs : s0 = s
    · refine ⟨sec0, ?_⟩
      rw [docInsertKV_cons_pos hs, docGet_cons_pos hs]
    · obtain ⟨sec1, hsec1⟩ := ih
      refine ⟨sec1, ?_⟩
      rw [docInsertKV_cons_neg hs, docGet_cons_neg hs]
      exact hsec1

/-- Help for C5: an entry line occurring before any header line lands in
the current section and is present in the final document. -/
theorem buildGo_pre_entry {k : Str} {v : Option Str} :
    ∀ (pre post : List Str) (cur : Str) (doc : Doc) (n : Nat) (doc' : Doc),
    (∀ l ∈ pre, ∀ nm, classify l ≠ .header nm) →
    buildGo (pre ++ post) cur doc n = .ok doc' →
    (∃ l ∈ pre, classify l = .entry k v) →
    ((docGet cur doc').bind (secGet k)).isSome = true := by
  intro pre
  induction pre with
  | nil =>
    intro post cur doc n doc' _ _ hkv
    rcases hkv with ⟨l, hl, _⟩
    cases hl
  | cons l0 pre' ih =>
    intro post cur doc n doc' hpre hb hkv
    rw [List.cons_append] at hb
    have hpre' : ∀ l ∈ pre', ∀ nm, classify l ≠ .header nm := fun l hl =>
      hpre l (List.mem_cons_of_mem _ hl)
    cases hcl : classify l0 with
    | header nm => exact absurd hcl (hpre l0 (List.mem_cons_self _ _) nm)
    | malformed =>
      simp only [buildGo, hcl] at hb
      exact Except.noConfusion hb
    | blank =>
      simp only [buildGo, hcl] at hb
      refine ih post cur doc (n + 1) doc' hpre' hb ?_
      rcases hkv with ⟨l, hl, hcl'⟩
      rcases List.mem_cons.mp hl with he | hm
      · rw [he, hcl] at hcl'
        exact LineKind.noConfusion hcl'
      · exact ⟨l, hm, hcl'⟩
    | comment =>
      simp only [buildGo, hcl] at hb
      refine ih post cur doc (n + 1) doc' hpre' hb ?_
      rcases hkv with ⟨l, hl, hcl'⟩
      rcases List.mem_cons.mp hl with he | hm
      · rw [he, hcl] at hcl'
        exact LineKind.noConfusion hcl'
      · exact ⟨l, hm, hcl'⟩
    | entry k0 v0 =>
      simp only [buildGo, hcl] at hb
      rcases hkv with ⟨l, hl, hcl'⟩
      rcases List.mem_cons.mp hl with he | hm
      · rw [he, hcl] at hcl'
        injection hcl' with hk0 hv0
        have hpres : ((docGet cur (docInsertKV cur k0 v0 doc)).bind
            (secGet k)).isSome = true := by
          obtain ⟨sec0, hsec⟩ := docGet_docInsert_self cur k0 v0 doc
          rw [hsec, Option.some_bind, hk0, secGet_insert_self]
          rfl
        exact buildGo_presence (pre' ++ post) cur
          (docInsertKV cur k0 v0 doc) (n + 1) doc' hb hpres
      · exact ih post cur (docInsertKV cur k0 v0 doc) (n + 1) doc' hpre' hb
          ⟨l, hm, hcl'⟩

/-- Claim C5: every key-value entry appearing before the first section
header is stored in the Default Section (its key canonicalizes to itself)
and is retrievable afterwards via get applied to the default-section name
and that key. -/
theorem claim5_default_section (text : Str) (doc : Doc)
    (pre post : List Str) (hsplit : splitLines text = pre ++ post)
    (hpre : ∀ l ∈ pre, ∀ nm, classify l ≠ .header nm)
    (hok : parse text = .ok doc) (k : Str) (v : Option Str)
    (hkv : ∃ l ∈ pre, classify l = .entry k v) :
    canon k = k ∧ (get doc "default" (String.mk k)).isSome = true := by
  have hcanon : canon k = k := by
    rcases hkv with ⟨l, hl, hcl⟩
    have hnl : '\n' ∉ l := splitLines_no_nl text l
      (by rw [hsplit]; exact List.mem_append_left _ hl)
    exact (classify_entry_wf hnl hcl).kcanon
  refine ⟨hcanon, ?_⟩
  unfold parse at hok
  rw [hsplit] at hok
  have hpres := buildGo_pre_entry pre post defaultName newDoc 1 doc hpre
    hok hkv
  show (getRaw doc (strL "default") k).isSome = true
  have hgr : getRaw doc (strL "default") k
      = (docGet defaultName doc).bind (secGet k) := by
    unfold getRaw
    rw [show canon (strL "default") = defaultName from by decide, hcanon]
    cases hdg : docGet defaultName doc with
    | none => rw [Option.none_bind]
    | some sec => rw [Option.some_bind]
  rw [hgr]
  exact hpres

/-- Witness for C5: a section-less entry lands in the default section. -/
theorem claim5_default_section_witness :
    parse (strL "cost = 9\nx")
      = .ok [(strL "default", [(strL "cost", some (strL "9")),
          (strL "x", none)])]
  ∧ canon (strL "cost") = strL "cost"
  ∧ (get [(strL "default", [(strL "cost", some (strL "9")),
        (strL "x", none)])] "default"
      (String.mk (strL "cost"))).isSome = true := by
  have h := claim5_default_section (strL "cost = 9\nx")
    [(strL "default", [(strL "cost", some (strL "9")), (strL "x", none)])]
    [strL "cost = 9", strL "x"] [] rfl
    (by
      intro l hl nm hc
      rcases List.mem_cons.mp hl with he | hm
      · rw [he, show classify (strL "cost = 9")
          = .entry (strL "cost") (some (strL "9")) from rfl] at hc
        exact LineKind.noConfusion hc
      · rcases List.mem_cons.mp hm with he' | hm'
        · rw [he', show classify (strL "x") = .entry (strL "x") none
            from rfl] at hc
          exact LineKind.noConfusion hc
        · cases hm')
    rfl (strL "cost") (some (strL "9"))
    ⟨strL "cost = 9", List.mem_cons_self _ _, rfl⟩
  exact ⟨rfl, h.1, h.2⟩

/-- Claim C10: the crate itself defines no parsing, storage, or
serialization logic; its entire public surface is the single re-export
`pub use configparser;`. -/
theorem claim10_crate_is_reexport :
    libRsItems.filter isPublicApi = [RustItem.pubUseReexport "configparser"]
  ∧ ∀ it ∈ libRsItems, definesLogic it = false := by
  refine ⟨rfl, ?_⟩
  intro it hit
  fin_cases hit <;> rfl

end IniRs
